import Mathlib

/-!
Verification of the `injects` argument-injection / argument-composition
decorator library (`injects/decorators.py`) against its specification.

The embedding models:
* Python values relevant to the library (`PyVal`), including callables
  (identified by an id, with behaviour given by an `Env`), coroutine
  objects and context-manager objects;
* `inspect.Signature` binding (`pyBind`, modelling `bind` / `bind_partial`
  for signatures made of positional-or-keyword and keyword-only
  parameters), and the `BoundArguments.args` / `.kwargs` properties
  (`baArgs` / `baKwargs`);
* the dictionary-heap used by `_build_bound_inject` / `_build_bound_compose`
  (the `copy.copy` of the decoration-time `arguments` mapping followed by an
  in-place `|=`), so that non-mutation of the shared decoration-time table
  is a provable statement rather than a triviality;
* all eight wrapper shapes produced by `injects`, `composes`,
  `injects.ctx` and `composes.ctx` (sync and async), with a trace of the
  observable actions the wrappers perform (invoking injector/composer
  callables, entering and releasing resource contexts, awaiting).

Computation runs in a writer-plus-error monad `M`; errors keep the trace
emitted before the failure, which models `contextlib.ExitStack` unwinding.
-/

set_option autoImplicit false

namespace Injects

/-- Errors surfaced to callers: Python `TypeError` (signature mismatch and
calling/entering non-callables/non-context-managers), `ValueError`
(tuple-unpacking failure), and opaque user-code errors. -/
inductive PyErr where
  | typeError (msg : String)
  | valueError (msg : String)
  | userError (code : Nat)
  deriving Repr, DecidableEq

/-- The universe of Python values the library manipulates: `None`, bools,
ints, strings, pairs (modelling tuples), plain callables (`vfunc id`),
callable objects with a custom equality class (`vobj id cls`: `is`
compares `id`, `==` compares `cls`), coroutine objects (`vcoro v` resolves
to `v` when awaited), and context-manager objects
(`vctx id inner isAsync enterFails`: entering yields `inner`, `isAsync`
says whether the object has `__aenter__`, `enterFails` makes its setup
step raise). -/
inductive PyVal where
  | vnone
  | vbool (b : Bool)
  | vint (n : Int)
  | vstr (s : String)
  | vpair (a b : PyVal)
  | vfunc (id : Nat)
  | vobj (id : Nat) (cls : Nat)
  | vcoro (v : PyVal)
  | vctx (id : Nat) (inner : PyVal) (isAsync : Bool) (enterFails : Bool)
  deriving Repr, DecidableEq

/-- Python `is` (object identity).  Distinct constructors or distinct ids
are distinct objects; immutable literals are modelled as interned. -/
def pyIs (a b : PyVal) : Bool := a == b

/-- Python `==`.  Same as identity except that `vobj` values compare by
their equality class `cls`, modelling a class with a custom `__eq__`. -/
def pyEq (a b : PyVal) : Bool :=
  match a, b with
  | .vobj _ c1, .vobj _ c2 => c1 == c2
  | a, b => a == b

/-- Python `callable(v)`. -/
def pyCallable : PyVal → Bool
  | .vfunc _ => true
  | .vobj _ _ => true
  | _ => false

/-- `inspect.iscoroutine(v)`: true exactly for coroutine objects. -/
def isCoroutine : PyVal → Bool
  | .vcoro _ => true
  | _ => false

/-- `hasattr(v, '__aenter__')`. -/
def hasAenter : PyVal → Bool
  | .vctx _ _ true _ => true
  | _ => false

/-- Behaviour of the callables appearing in injector/composer tables and
at call time: `call0` is a zero-argument invocation of the callable with
the given id, `call1` a one-argument invocation. -/
structure Env where
  call0 : Nat → Except PyErr PyVal
  call1 : Nat → PyVal → Except PyErr PyVal

/-- Observable actions performed by a wrapper during one call: invoking a
zero- or one-argument callable, entering a resource context, releasing one,
awaiting a coroutine. -/
inductive Ev where
  | call0 (id : Nat)
  | call1 (id : Nat) (arg : PyVal)
  | enter (id : Nat)
  | release (id : Nat)
  | awaited (v : PyVal)
  deriving Repr, DecidableEq

/-- Writer-plus-error monad for wrapper execution: a result together with
the trace of events emitted up to the result (the trace survives errors,
which is what lets `ExitStack` unwinding be stated). -/
def M (α : Type) : Type := Except PyErr α × List Ev

def mret {α : Type} (a : α) : M α := (.ok a, [])

def mbind {α β : Type} (x : M α) (f : α → M β) : M β :=
  match x with
  | (.ok a, evs) => ((f a).1, evs ++ (f a).2)
  | (.error e, evs) => (.error e, evs)

instance : Monad M where
  pure := mret
  bind := mbind

def throwM {α : Type} (e : PyErr) : M α := (.error e, [])

def liftE {α : Type} (x : Except PyErr α) : M α := (x, [])

def emitE (e : Ev) : M Unit := (.ok (), [e])

/-- `mapM` over `M`, evaluating left to right (the order in which the
wrappers consume the generators returned by the build functions). -/
def mmapM {α β : Type} (f : α → M β) : List α → M (List β)
  | [] => mret []
  | a :: as => mbind (f a) fun b => mbind (mmapM f as) fun bs => mret (b :: bs)

/-- The id under which a value is callable, if any. -/
def callId : PyVal → Option Nat
  | .vfunc id => some id
  | .vobj id _ => some id
  | _ => none

/-- Zero-argument invocation `c()`: emits a `call0` event and consults the
environment; raises `TypeError` on non-callables. -/
def pyCall0 (env : Env) (c : PyVal) : M PyVal :=
  match callId c with
  | some id => (env.call0 id, [.call0 id])
  | none => throwM (.typeError "object is not callable")

/-- One-argument invocation `c(a)`. -/
def pyCall1 (env : Env) (c a : PyVal) : M PyVal :=
  match callId c with
  | some id => (env.call1 id a, [.call1 id a])
  | none => throwM (.typeError "object is not callable")

/-! ## Signatures and argument binding (`inspect.Signature`) -/

/-- Parameter kinds the library's signatures use. -/
inductive PKind where
  | posOrKw
  | kwOnly
  deriving Repr, DecidableEq

/-- A declared parameter: name, kind, and optional default value. -/
structure Param where
  name : String
  kind : PKind
  default : Option PyVal
  deriving Repr, DecidableEq

/-- A declared signature: the parameter list in declaration order. -/
abbrev Sig : Type := List Param

/-- Association-list lookup by parameter name (Python `dict` lookup). -/
def lkp {α : Type} (k : String) : List (String × α) → Option α
  | [] => none
  | (k2, v) :: rest => if k2 = k then some v else lkp k rest

/-- The `arguments` mapping in canonical (parameter-declaration) order,
keeping only parameters actually present in `m`.  CPython's
`Signature._bind` produces its `arguments` dict in this order. -/
def canon {α : Type} : Sig → List (String × α) → List (String × α)
  | [], _ => []
  | p :: ps, m =>
    match lkp p.name m with
    | some v => (p.name, v) :: canon ps m
    | none => canon ps m

/-- Names of a signature's parameters. -/
def namesOf (sig : Sig) : List String := sig.map (·.name)

/-- Well-formed signature: parameter names are distinct (Python enforces
this for every function definition). -/
abbrev SigOk (sig : Sig) : Prop := (namesOf sig).Nodup

/-- First phase of `Signature._bind`: match positional values against the
leading positional-or-keyword parameters; too many positional values (or a
positional value reaching a keyword-only parameter) is a `TypeError`. -/
def bindPos {α : Type} : Sig → List α → Except PyErr (List (String × α))
  | _, [] => .ok []
  | [], _ :: _ => .error (.typeError "too many positional arguments")
  | p :: ps, v :: vs =>
    match p.kind with
    | .kwOnly => .error (.typeError "too many positional arguments")
    | .posOrKw =>
      match bindPos ps vs with
      | .error e => .error e
      | .ok rest => .ok ((p.name, v) :: rest)

/-- Second phase of `Signature._bind`: match keyword values by name;
a name already bound (positionally or by an earlier keyword) or not
declared by the signature is a `TypeError`. -/
def bindKw {α : Type} (sig : Sig) : List String → List (String × α) →
    Except PyErr (List (String × α))
  | _, [] => .ok []
  | bound, (k, v) :: rest =>
    if k ∈ bound then .error (.typeError "multiple values for argument")
    else if k ∈ namesOf sig then
      match bindKw sig (k :: bound) rest with
      | .error e => .error e
      | .ok r => .ok ((k, v) :: r)
    else .error (.typeError "got an unexpected keyword argument")

/-- `Signature.bind` (`isPart = false`) and `Signature.bind_partial`
(`isPart = true`): bind positional and keyword values against the
signature, rejecting signature mismatches; a full bind additionally
requires every parameter without a default to be bound.  Defaults are not
inserted into the resulting `arguments` mapping (as in CPython). -/
def pyBind {α : Type} (sig : Sig) (pos : List α) (kw : List (String × α))
    (isPart : Bool) : Except PyErr (List (String × α)) :=
  match bindPos sig pos with
  | .error e => .error e
  | .ok pb =>
    match bindKw sig (pb.map (·.1)) kw with
    | .error e => .error e
    | .ok kb =>
      let m := canon sig (pb ++ kb)
      if isPart then .ok m
      else if sig.all (fun p => p.default.isSome || (lkp p.name m).isSome) then .ok m
      else .error (.typeError "missing a required argument")

/-- The name/value pairs delivered positionally by `BoundArguments.args`:
walk the parameters in order, stopping at the first keyword-only or
unbound parameter. -/
def baPairs {α : Type} : Sig → List (String × α) → List (String × α)
  | [], _ => []
  | p :: ps, m =>
    match p.kind with
    | .kwOnly => []
    | .posOrKw =>
      match lkp p.name m with
      | none => []
      | some v => (p.name, v) :: baPairs ps m

/-- `BoundArguments.args`: the positional value tuple. -/
def baArgs {α : Type} (sig : Sig) (m : List (String × α)) : List α :=
  (baPairs sig m).map (·.2)

/-- `BoundArguments.kwargs`: every bound parameter from the point where
the positional walk stopped (first keyword-only parameter, or first
unbound parameter), keyed by name in parameter order. -/
def baKwargs {α : Type} : Sig → List (String × α) → List (String × α)
  | [], _ => []
  | p :: ps, m =>
    match p.kind with
    | .kwOnly => canon (p :: ps) m
    | .posOrKw =>
      match lkp p.name m with
      | none => canon ps m
      | some _ => baKwargs ps m

/-- The arguments mapping an actual Python call `fn(*args, **kwargs)`
delivers to the function body: the bound arguments with declared defaults
filled in for unbound parameters. -/
def withDefaults (sig : Sig) (m : List (String × PyVal)) : List (String × PyVal) :=
  match sig with
  | [] => []
  | p :: ps =>
    match lkp p.name m with
    | some v => (p.name, v) :: withDefaults ps m
    | none =>
      match p.default with
      | some d => (p.name, d) :: withDefaults ps m
      | none => withDefaults ps m

/-- Semantics of the wrapped function: from the full arguments mapping it
receives, an outcome (return value or raised error).  The wrapped function
is external code, so it emits no library events. -/
def FnOut : Type := List (String × PyVal) → Except PyErr PyVal

/-- The argument mapping the underlying function receives from the call
`fn(*pos, **kw)`: a full bind against the declared signature (raising a
`TypeError` on mismatch, e.g. a required parameter still missing after the
merge) followed by filling in declared defaults. -/
def invokeArgs (sig : Sig) (pos : List PyVal) (kw : List (String × PyVal)) :
    M (List (String × PyVal)) :=
  match pyBind sig pos kw false with
  | .error e => throwM e
  | .ok m => mret (withDefaults sig m)

/-! ## The dictionary heap used by the build functions

`_build_bound_inject` and `_build_bound_compose` construct a fresh
`BoundArguments` whose `arguments` dict is a `copy.copy` of one input and
then merge the other input into it in place with `|=`.  The heap makes
the copy-then-mutate step explicit, so that preservation of the shared
decoration-time table is a statement about the code. -/

/-- Python `d1 | d2` on dicts (also the result of `d1 |= d2`): keys of
`d1` in their original order with values updated from `d2`, followed by
the keys only `d2` has. -/
def dunion {α : Type} (d1 d2 : List (String × α)) : List (String × α) :=
  d1.map (fun kv => (kv.1, (lkp kv.1 d2).getD kv.2)) ++
    d2.filter (fun kv => (lkp kv.1 d1).isNone)

/-- A heap of argument dictionaries, addressed by reference. -/
structure DHeap (α : Type) where
  store : List (List (String × α))

def readD {α : Type} (h : DHeap α) (r : Nat) : List (String × α) :=
  h.store.getD r []

def writeD {α : Type} (h : DHeap α) (r : Nat) (d : List (String × α)) : DHeap α :=
  ⟨h.store.set r d⟩

def allocD {α : Type} (h : DHeap α) (d : List (String × α)) : Nat × DHeap α :=
  (h.store.length, ⟨h.store ++ [d]⟩)

/-- `_build_bound_inject`'s dictionary manipulation: allocate `bb` as a
copy of the decoration-time `bc.arguments`, then `bb.arguments |=
ba.arguments` in place (call-time bindings overlaid on top). -/
def buildBoundInjectH {α : Type} (h : DHeap α) (baRef bcRef : Nat) : Nat × DHeap α :=
  let bbRef := (allocD h (readD h bcRef)).1
  let h1 := (allocD h (readD h bcRef)).2
  let h2 := writeD h1 bbRef (dunion (readD h1 bbRef) (readD h1 baRef))
  (bbRef, h2)

/-- `_build_bound_compose`'s dictionary manipulation: allocate `bb` as a
copy of the call-time `ba.arguments`, then `bb.arguments |= bc.arguments`
(composer table overlaid on top). -/
def buildBoundComposeH {α : Type} (h : DHeap α) (baRef bcRef : Nat) : Nat × DHeap α :=
  let bbRef := (allocD h (readD h baRef)).1
  let h1 := (allocD h (readD h baRef)).2
  let h2 := writeD h1 bbRef (dunion (readD h1 bbRef) (readD h1 bcRef))
  (bbRef, h2)

/-- Run `_build_bound_inject`'s merge on a heap holding the decoration
table `bc` (ref 0) and the call-time binding `ba` (ref 1); result: the
merged `bb` dictionary and the table as it reads back afterwards. -/
def mergeInject {α : Type} (bc ba : List (String × α)) :
    List (String × α) × List (String × α) :=
  let h0 : DHeap α := ⟨[bc, ba]⟩
  let r := buildBoundInjectH h0 1 0
  (readD r.2 r.1, readD r.2 0)

/-- Run `_build_bound_compose`'s merge on a heap holding the composer
table `bc` (ref 0) and the call-time binding `ba` (ref 1); result: the
merged `bb` dictionary and the table as it reads back afterwards. -/
def mergeCompose {α : Type} (bc ba : List (String × α)) :
    List (String × α) × List (String × α) :=
  let h0 : DHeap α := ⟨[bc, ba]⟩
  let r := buildBoundComposeH h0 1 0
  (readD r.2 r.1, readD r.2 0)

/-! ## Tagged values -/

/-- A value inside the inject merge: decoration-time table entries are
`_bindwrap` instances (`wrapped`), call-time values are raw objects
(`plain`). -/
inductive BVal where
  | plain (v : PyVal)
  | wrapped (v : PyVal)
  deriving Repr, DecidableEq

/-- `_call_bound_inject`: a raw (call-time) value passes through untagged;
a `_bindwrap` holding a non-callable passes its payload through untagged;
a `_bindwrap` holding a callable invokes it with no arguments and tags the
result with the producing callable. -/
def callBoundInject (env : Env) : BVal → M (PyVal × Bool × PyVal)
  | .plain a => mret (a, false, .vbool false)
  | .wrapped v =>
    if pyCallable v then
      mbind (pyCall0 env v) fun r => mret (r, true, v)
    else mret (v, false, .vbool false)

/-- `_call` inside `_build_bound_compose`: if the composer `c` is the very
object supplied at call time, or is `None` (including "no composer bound
for this name", since `dict.get` returns `None`), the call-time value
passes through untagged; otherwise the composer is invoked on the
call-time value and the result is tagged with the producing callable. -/
def ccall (env : Env) (c a : PyVal) : M (PyVal × Bool × PyVal) :=
  if pyIs c a || pyIs c .vnone then mret (a, false, .vbool false)
  else mbind (pyCall1 env c a) fun r => mret (r, true, c)

/-- `await v`: coroutine objects resolve to their payload; anything else
raises a `TypeError`. -/
def pyAwait : PyVal → M PyVal
  | .vcoro v => mbind (emitE (.awaited v)) fun _ => mret v
  | v => throwM (.typeError (match v with | _ => "object is not awaitable"))

/-- The per-value step of the async non-context wrappers:
`await v if inspect.iscoroutine(awt) else v` — note the condition tests
the producing callable `awt`, exactly as the source does. -/
def resolveStep (t : PyVal × Bool × PyVal) : M PyVal :=
  if isCoroutine t.2.2 then pyAwait t.1 else mret t.1

/-! ## Resource contexts and `ExitStack` -/

/-- `stack.enter_context(v)`: run the synchronous setup step of a
synchronous context-manager object, record the entry, and produce the
inside value; objects without `__enter__` raise a `TypeError`. -/
def pyEnterS : PyVal → M PyVal
  | .vctx id inner ia fails =>
    if ia then throwM (.typeError "object does not support the context manager protocol")
    else if fails then throwM (.userError id)
    else mbind (emitE (.enter id)) fun _ => mret inner
  | _ => throwM (.typeError "object does not support the context manager protocol")

/-- The enter step of the async context wrappers: if the object has
`__aenter__` use `stack.enter_async_context`, otherwise fall back to the
synchronous `stack.enter_context`. -/
def pyEnterA (v : PyVal) : M PyVal :=
  match v with
  | .vctx id inner true fails =>
    if fails then throwM (.userError id)
    else mbind (emitE (.enter id)) fun _ => mret inner
  | v => pyEnterS v

/-- Ids of the `enter` events in a trace, in order of entry. -/
def enterIds (evs : List Ev) : List Nat :=
  evs.filterMap fun e => match e with | .enter id => some id | _ => none

/-- Ids of the `release` events in a trace, in order of release. -/
def releaseIds (evs : List Ev) : List Nat :=
  evs.filterMap fun e => match e with | .release id => some id | _ => none

/-- `with ExitStack() as stack: body` (also `AsyncExitStack`): whether the
body completes or raises, every context entered on the stack during the
body is released, most recently entered first, before the body's outcome
is passed on. -/
def runStack {α : Type} (body : M α) : M α :=
  (body.1, body.2 ++ (enterIds body.2).reverse.map Ev.release)

/-! ## Decoration -/

/-- Decoration by `injects(*injector_args, **injector_kwargs)` (also
`injects.ctx`): wrap every supplied value in `_bindwrap` and bind the
wrapped values against the target's signature with `bind_partial`,
yielding the injector table (or a signature-mismatch error at decoration
time). -/
def injectsDecorate (sig : Sig) (pos : List PyVal) (kw : List (String × PyVal)) :
    Except PyErr (List (String × BVal)) :=
  pyBind sig (pos.map BVal.wrapped) (kw.map fun kv => (kv.1, BVal.wrapped kv.2)) true

/-- Decoration by `composes(*composer_args, **composer_kwargs)` (also
`composes.ctx`): bind the supplied composers against the target's
signature with `bind_partial`, yielding the composer table. -/
def composesDecorate (sig : Sig) (pos : List PyVal) (kw : List (String × PyVal)) :
    Except PyErr (List (String × PyVal)) :=
  pyBind sig pos kw true

/-- The wrapper's binding of the caller's raw arguments for the inject
variants (`sig.bind_partial(*args, **kwargs)`); raw call-time objects are
not `_bindwrap` instances, hence `plain`. -/
def bindCallerI (sig : Sig) (pos : List PyVal) (kw : List (String × PyVal)) :
    Except PyErr (List (String × BVal)) :=
  pyBind sig (pos.map BVal.plain) (kw.map fun kv => (kv.1, BVal.plain kv.2)) true

/-! ## The `injects` wrappers -/

/-- The synchronous `injects` wrapper up to (and including) the binding
the underlying function performs on invocation: returns the full argument
mapping delivered to the wrapped function, together with the decoration
table as it reads back after the call. -/
def injectsSyncDelivered (env : Env) (sig : Sig) (table : List (String × BVal))
    (pos : List PyVal) (kw : List (String × PyVal)) :
    M (List (String × PyVal)) × List (String × BVal) :=
  match bindCallerI sig pos kw with
  | .error e => (throwM e, table)
  | .ok mba =>
    let pr := mergeInject table mba
    (mbind (mmapM (callBoundInject env) (baArgs sig pr.1)) fun ts =>
     mbind (mmapM (fun kv => mbind (callBoundInject env kv.2) fun t => mret (kv.1, t))
         (baKwargs sig pr.1)) fun kts =>
     match pyBind sig (ts.map (·.1)) (kts.map fun kt => (kt.1, kt.2.1)) true with
     | .error e => throwM e
     | .ok m2 => invokeArgs sig (baArgs sig m2) (baKwargs sig m2), pr.2)

/-- A full call of a function decorated with `injects` (synchronous
variant): result of the call and the decoration table afterwards. -/
def injectsSyncCall (env : Env) (sig : Sig) (table : List (String × BVal))
    (fnOut : FnOut) (pos : List PyVal) (kw : List (String × PyVal)) :
    M PyVal × List (String × BVal) :=
  let d := injectsSyncDelivered env sig table pos kw
  (mbind d.1 fun m => liftE (fnOut m), d.2)

/-- The asynchronous `injects` wrapper up to the underlying invocation's
binding: as the synchronous one, but each consumed tagged value goes
through `await v if inspect.iscoroutine(awt) else v`. -/
def injectsAsyncDelivered (env : Env) (sig : Sig) (table : List (String × BVal))
    (pos : List PyVal) (kw : List (String × PyVal)) :
    M (List (String × PyVal)) × List (String × BVal) :=
  match bindCallerI sig pos kw with
  | .error e => (throwM e, table)
  | .ok mba =>
    let pr := mergeInject table mba
    (mbind (mmapM (fun bv => mbind (callBoundInject env bv) resolveStep)
         (baArgs sig pr.1)) fun args =>
     mbind (mmapM (fun kv => mbind (callBoundInject env kv.2) fun t =>
         mbind (resolveStep t) fun v => mret (kv.1, v)) (baKwargs sig pr.1)) fun kws =>
     match pyBind sig args kws true with
     | .error e => throwM e
     | .ok m2 => invokeArgs sig (baArgs sig m2) (baKwargs sig m2), pr.2)

/-- A full call of an async function decorated with `injects`: the
underlying coroutine function is invoked and awaited. -/
def injectsAsyncCall (env : Env) (sig : Sig) (table : List (String × BVal))
    (fnOut : FnOut) (pos : List PyVal) (kw : List (String × PyVal)) :
    M PyVal × List (String × BVal) :=
  let d := injectsAsyncDelivered env sig table pos kw
  (mbind d.1 fun m => liftE (fnOut m), d.2)

/-- The per-argument step of the synchronous `injects.ctx` wrapper:
produce the tagged value, then `stack.enter_context(v) if cld else v`. -/
def ctxStepISync (env : Env) (bv : BVal) : M PyVal :=
  mbind (callBoundInject env bv) fun t => if t.2.1 then pyEnterS t.1 else mret t.1

/-- The per-argument step of the asynchronous `injects.ctx` wrapper
(`_enter`): produce the tagged value; if it is not flagged as produced by
a callable pass it through, otherwise enter it (async if capable). -/
def ctxStepIAsync (env : Env) (bv : BVal) : M PyVal :=
  mbind (callBoundInject env bv) fun t => if t.2.1 then pyEnterA t.1 else mret t.1

/-- The keyword branch of the synchronous `injects.ctx` wrapper as
written: the dict comprehension unpacks each `(name, tagged-value)` pair
into three variables, so producing the first keyword item (which invokes
its injector callable) is followed immediately by a `ValueError`; with no
keyword items the comprehension yields an empty dict. -/
def ctxKwBugStep (env : Env) : List (String × BVal) → M (List (String × PyVal))
  | [] => mret []
  | kv :: _ =>
    mbind (callBoundInject env kv.2) fun _ =>
      throwM (.valueError "not enough values to unpack")

/-- A full call of a function decorated with `injects.ctx` (synchronous
variant): bind, merge, enter flagged values (positional branch), hit the
keyword-branch unpacking defect if any keyword item exists, invoke, and
release all entered contexts on the way out of the `with` block. -/
def injectsCtxSyncCall (env : Env) (sig : Sig) (table : List (String × BVal))
    (fnOut : FnOut) (pos : List PyVal) (kw : List (String × PyVal)) :
    M PyVal × List (String × BVal) :=
  let d : M PyVal × List (String × BVal) :=
    match bindCallerI sig pos kw with
    | .error e => (throwM e, table)
    | .ok mba =>
      let pr := mergeInject table mba
      (mbind (mmapM (ctxStepISync env) (baArgs sig pr.1)) fun args =>
       mbind (ctxKwBugStep env (baKwargs sig pr.1)) fun kws =>
       match pyBind sig args kws true with
       | .error e => throwM e
       | .ok m2 =>
         mbind (invokeArgs sig (baArgs sig m2) (baKwargs sig m2)) fun m =>
           liftE (fnOut m), pr.2)
  (runStack d.1, d.2)

/-- A full call of an async function decorated with `injects.ctx`. -/
def injectsCtxAsyncCall (env : Env) (sig : Sig) (table : List (String × BVal))
    (fnOut : FnOut) (pos : List PyVal) (kw : List (String × PyVal)) :
    M PyVal × List (String × BVal) :=
  let d : M PyVal × List (String × BVal) :=
    match bindCallerI sig pos kw with
    | .error e => (throwM e, table)
    | .ok mba =>
      let pr := mergeInject table mba
      (mbind (mmapM (ctxStepIAsync env) (baArgs sig pr.1)) fun args =>
       mbind (mmapM (fun kv => mbind (ctxStepIAsync env kv.2) fun v => mret (kv.1, v))
           (baKwargs sig pr.1)) fun kws =>
       match pyBind sig args kws true with
       | .error e => throwM e
       | .ok m2 =>
         mbind (invokeArgs sig (baArgs sig m2) (baKwargs sig m2)) fun m =>
           liftE (fnOut m), pr.2)
  (runStack d.1, d.2)

/-! ## The `composes` wrappers -/

/-- The synchronous `composes` wrapper up to the underlying invocation's
binding: bind the caller's arguments with a full `sig.bind`, overlay the
composer table on a copy of the call-time binding, pair composers with the
call-time values (`zip(bb.args, ba.args)` positionally, `ba.kwargs` with
`bb.kwargs.get(k)` by name), apply `_call` to each pair, and rebind. -/
def composesSyncDelivered (env : Env) (sig : Sig) (table : List (String × PyVal))
    (pos : List PyVal) (kw : List (String × PyVal)) :
    M (List (String × PyVal)) × List (String × PyVal) :=
  match pyBind sig pos kw false with
  | .error e => (throwM e, table)
  | .ok mba =>
    let pr := mergeCompose table mba
    (mbind (mmapM (fun ca => ccall env ca.1 ca.2)
         ((baArgs sig pr.1).zip (baArgs sig mba))) fun ts =>
     mbind (mmapM (fun kv =>
         mbind (ccall env ((lkp kv.1 (baKwargs sig pr.1)).getD PyVal.vnone) kv.2)
           fun t => mret (kv.1, t)) (baKwargs sig mba)) fun kts =>
     match pyBind sig (ts.map (·.1)) (kts.map fun kt => (kt.1, kt.2.1)) false with
     | .error e => throwM e
     | .ok m2 => invokeArgs sig (baArgs sig m2) (baKwargs sig m2), pr.2)

/-- A full call of a function decorated with `composes` (synchronous). -/
def composesSyncCall (env : Env) (sig : Sig) (table : List (String × PyVal))
    (fnOut : FnOut) (pos : List PyVal) (kw : List (String × PyVal)) :
    M PyVal × List (String × PyVal) :=
  let d := composesSyncDelivered env sig table pos kw
  (mbind d.1 fun m => liftE (fnOut m), d.2)

/-- The asynchronous `composes` wrapper up to the underlying invocation's
binding. -/
def composesAsyncDelivered (env : Env) (sig : Sig) (table : List (String × PyVal))
    (pos : List PyVal) (kw : List (String × PyVal)) :
    M (List (String × PyVal)) × List (String × PyVal) :=
  match pyBind sig pos kw false with
  | .error e => (throwM e, table)
  | .ok mba =>
    let pr := mergeCompose table mba
    (mbind (mmapM (fun ca => mbind (ccall env ca.1 ca.2) resolveStep)
         ((baArgs sig pr.1).zip (baArgs sig mba))) fun args =>
     mbind (mmapM (fun kv =>
         mbind (ccall env ((lkp kv.1 (baKwargs sig pr.1)).getD PyVal.vnone) kv.2)
           fun t => mbind (resolveStep t) fun v => mret (kv.1, v))
         (baKwargs sig mba)) fun kws =>
     match pyBind sig args kws false with
     | .error e => throwM e
     | .ok m2 => invokeArgs sig (baArgs sig m2) (baKwargs sig m2), pr.2)

/-- A full call of an async function decorated with `composes`. -/
def composesAsyncCall (env : Env) (sig : Sig) (table : List (String × PyVal))
    (fnOut : FnOut) (pos : List PyVal) (kw : List (String × PyVal)) :
    M PyVal × List (String × PyVal) :=
  let d := composesAsyncDelivered env sig table pos kw
  (mbind d.1 fun m => liftE (fnOut m), d.2)

/-- The per-pair step of the synchronous `composes.ctx` wrapper. -/
def ctxStepCSync (env : Env) (c a : PyVal) : M PyVal :=
  mbind (ccall env c a) fun t => if t.2.1 then pyEnterS t.1 else mret t.1

/-- The per-pair step of the asynchronous `composes.ctx` wrapper. -/
def ctxStepCAsync (env : Env) (c a : PyVal) : M PyVal :=
  mbind (ccall env c a) fun t => if t.2.1 then pyEnterA t.1 else mret t.1

/-- A full call of a function decorated with `composes.ctx`
(synchronous variant). -/
def composesCtxSyncCall (env : Env) (sig : Sig) (table : List (String × PyVal))
    (fnOut : FnOut) (pos : List PyVal) (kw : List (String × PyVal)) :
    M PyVal × List (String × PyVal) :=
  let d : M PyVal × List (String × PyVal) :=
    match pyBind sig pos kw false with
    | .error e => (throwM e, table)
    | .ok mba =>
      let pr := mergeCompose table mba
      (mbind (mmapM (fun ca => ctxStepCSync env ca.1 ca.2)
           ((baArgs sig pr.1).zip (baArgs sig mba))) fun args =>
       mbind (mmapM (fun kv =>
           mbind (ctxStepCSync env ((lkp kv.1 (baKwargs sig pr.1)).getD PyVal.vnone) kv.2)
             fun v => mret (kv.1, v)) (baKwargs sig mba)) fun kws =>
       match pyBind sig args kws false with
       | .error e => throwM e
       | .ok m2 =>
         mbind (invokeArgs sig (baArgs sig m2) (baKwargs sig m2)) fun m =>
           liftE (fnOut m), pr.2)
  (runStack d.1, d.2)

/-- A full call of an async function decorated with `composes.ctx`. -/
def composesCtxAsyncCall (env : Env) (sig : Sig) (table : List (String × PyVal))
    (fnOut : FnOut) (pos : List PyVal) (kw : List (String × PyVal)) :
    M PyVal × List (String × PyVal) :=
  let d : M PyVal × List (String × PyVal) :=
    match pyBind sig pos kw false with
    | .error e => (throwM e, table)
    | .ok mba =>
      let pr := mergeCompose table mba
      (mbind (mmapM (fun ca => ctxStepCAsync env ca.1 ca.2)
           ((baArgs sig pr.1).zip (baArgs sig mba))) fun args =>
       mbind (mmapM (fun kv =>
           mbind (ctxStepCAsync env ((lkp kv.1 (baKwargs sig pr.1)).getD PyVal.vnone) kv.2)
             fun v => mret (kv.1, v)) (baKwargs sig mba)) fun kws =>
       match pyBind sig args kws false with
       | .error e => throwM e
       | .ok m2 =>
         mbind (invokeArgs sig (baArgs sig m2) (baKwargs sig m2)) fun m =>
           liftE (fnOut m), pr.2)
  (runStack d.1, d.2)

/-! ## Basic lemmas about the execution monad -/

theorem mbind_fst_ok {α β : Type} {x : M α} {f : α → M β} {a : α}
    (h : x.1 = .ok a) : (mbind x f).1 = (f a).1 := by
  obtain ⟨r, evs⟩ := x
  cases r with
  | ok b => cases h; rfl
  | error e => exact absurd h (by simp)

theorem mbind_fst_error {α β : Type} {x : M α} {f : α → M β} {e : PyErr}
    (h : x.1 = .error e) : (mbind x f).1 = .error e := by
  obtain ⟨r, evs⟩ := x
  cases r with
  | ok b => exact absurd h (by simp)
  | error e2 => cases h; rfl

theorem mbind_ok_inv {α β : Type} {x : M α} {f : α → M β} {b : β}
    (h : (mbind x f).1 = .ok b) : ∃ a, x.1 = .ok a ∧ (f a).1 = .ok b := by
  obtain ⟨r, evs⟩ := x
  cases r with
  | ok a => exact ⟨a, rfl, h⟩
  | error e => simp [mbind] at h

theorem mret_fst {α : Type} (a : α) : (mret a).1 = .ok a := rfl

/-- Value part of a successful `mmapM` run: each result is determined by
the per-element value function. -/
theorem mmapM_fst_ok_eq_map {α β : Type} {f : α → M β} {g : α → β}
    (hg : ∀ a b, (f a).1 = .ok b → b = g a) :
    ∀ {l : List α} {bs : List β}, (mmapM f l).1 = .ok bs → bs = l.map g := by
  intro l
  induction l with
  | nil => intro bs h; simp [mmapM, mret] at h; simp [h]
  | cons a as ih =>
    intro bs h
    obtain ⟨b, hb, hrest⟩ := mbind_ok_inv h
    obtain ⟨bs2, hbs2, hcons⟩ := mbind_ok_inv hrest
    simp [mret] at hcons
    subst hcons
    simp [hg a b hb, ih hbs2]

/-! ## Lemmas about lookup, canonical bindings and extraction -/

theorem lkp_append {α : Type} (k : String) (l1 l2 : List (String × α)) :
    lkp k (l1 ++ l2) =
      match lkp k l1 with
      | some v => some v
      | none => lkp k l2 := by
  induction l1 with
  | nil => simp [lkp]
  | cons kv rest ih =>
    by_cases h : kv.1 = k
    · simp [lkp, h]
    · simpa [lkp, h] using ih

/-- Looking up in a list mapped by a key-preserving value transformation. -/
theorem lkp_map_keydep {α β : Type} (t : String → α → β) (k : String)
    (m : List (String × α)) :
    lkp k (m.map fun kv => (kv.1, t kv.1 kv.2)) = (lkp k m).map (t k) := by
  induction m with
  | nil => simp [lkp]
  | cons kv rest ih =>
    by_cases h : kv.1 = k
    · subst h; simp [lkp, ih]
    · simp [lkp, h, ih]

theorem lkp_mem_of_some {α : Type} {k : String} {v : α} :
    ∀ {m : List (String × α)}, lkp k m = some v → (k, v) ∈ m := by
  intro m
  induction m with
  | nil => intro h; simp [lkp] at h
  | cons kv rest ih =>
    intro h
    by_cases hk : kv.1 = k
    · obtain ⟨k2, v2⟩ := kv
      simp only at hk
      subst hk
      simp [lkp] at h
      subst h
      exact List.Mem.head _
    · simp [lkp, hk] at h
      exact List.Mem.tail _ (ih h)

theorem canon_congr {α : Type} {m1 m2 : List (String × α)} :
    ∀ {sig : Sig}, (∀ p ∈ sig, lkp p.name m1 = lkp p.name m2) →
      canon sig m1 = canon sig m2 := by
  intro sig
  induction sig with
  | nil => intro _; rfl
  | cons p ps ih =>
    intro h
    have hp := h p (by simp)
    have hps := fun q hq => h q (List.mem_cons_of_mem p hq)
    simp only [canon, hp, ih hps]

theorem canon_map {α β : Type} (t : String → α → β) :
    ∀ (sig : Sig) (m : List (String × α)),
      canon sig (m.map fun kv => (kv.1, t kv.1 kv.2)) =
        (canon sig m).map fun kv => (kv.1, t kv.1 kv.2) := by
  intro sig
  induction sig with
  | nil => intro m; rfl
  | cons p ps ih =>
    intro m
    simp only [canon, lkp_map_keydep]
    cases h : lkp p.name m with
    | none => simp [ih]
    | some v => simp [ih]

theorem canon_keys_sublist {α : Type} :
    ∀ (sig : Sig) (m : List (String × α)),
      ((canon sig m).map (·.1)).Sublist (namesOf sig) := by
  intro sig
  induction sig with
  | nil => intro m; simp [canon, namesOf]
  | cons p ps ih =>
    intro m
    simp only [canon, namesOf, List.map_cons]
    cases h : lkp p.name m with
    | none => exact (ih m).cons _
    | some v => simpa [namesOf] using List.Sublist.cons₂ p.name (ih m)

theorem lkp_canon {α : Type} {sig : Sig} (hnd : SigOk sig) (m : List (String × α))
    (n : String) :
    lkp n (canon sig m) = if n ∈ namesOf sig then lkp n m else none := by
  induction sig with
  | nil => simp [canon, namesOf, lkp]
  | cons p ps ih =>
    have hnd2 : SigOk ps := (List.nodup_cons.mp hnd).2
    have hnp : p.name ∉ namesOf ps := (List.nodup_cons.mp hnd).1
    by_cases hn : p.name = n
    · subst hn
      cases h : lkp p.name m with
      | none =>
        simp only [canon, h]
        rw [ih hnd2]
        simp [namesOf, h, hnp]
      | some v => simp [canon, h, lkp, namesOf]
    · cases h : lkp p.name m with
      | none =>
        simp only [canon, h]
        rw [ih hnd2]
        simp [namesOf, Ne.symm hn]
      | some v =>
        simp only [canon, h, lkp, hn, if_false]
        rw [ih hnd2]
        simp [namesOf, Ne.symm hn]

theorem canon_idem {α : Type} {sig : Sig} (hnd : SigOk sig) (m : List (String × α)) :
    canon sig (canon sig m) = canon sig m := by
  apply canon_congr
  intro p hp
  rw [lkp_canon hnd]
  have hmem : p.name ∈ namesOf sig := List.mem_map_of_mem _ hp
  simp [hmem]

/-- `BoundArguments.args` and `.kwargs` exactly partition the bound
arguments: concatenating the positional pairs with the keyword pairs gives
back the canonical arguments mapping. -/
theorem baPairs_append_baKwargs {α : Type} :
    ∀ (sig : Sig) (m : List (String × α)),
      baPairs sig m ++ baKwargs sig m = canon sig m := by
  intro sig
  induction sig with
  | nil => intro m; rfl
  | cons p ps ih =>
    intro m
    cases hk : p.kind with
    | kwOnly => simp [baPairs, baKwargs, hk]
    | posOrKw =>
      cases h : lkp p.name m with
      | none => simp [baPairs, baKwargs, hk, h, canon]
      | some v => simp [baPairs, baKwargs, hk, h, canon, ih]

theorem baPairs_congr {α : Type} {m1 m2 : List (String × α)} :
    ∀ {sig : Sig}, (∀ p ∈ sig, lkp p.name m1 = lkp p.name m2) →
      baPairs sig m1 = baPairs sig m2 := by
  intro sig
  induction sig with
  | nil => intro _; rfl
  | cons p ps ih =>
    intro h
    have hp := h p (by simp)
    have hps := fun q hq => h q (List.mem_cons_of_mem p hq)
    cases hk : p.kind with
    | kwOnly => simp [baPairs, hk]
    | posOrKw =>
      cases h2 : lkp p.name m2 with
      | none => simp [baPairs, hk, hp, h2]
      | some v => simp [baPairs, hk, hp, h2, ih hps]

theorem baKwargs_congr {α : Type} {m1 m2 : List (String × α)} :
    ∀ {sig : Sig}, (∀ p ∈ sig, lkp p.name m1 = lkp p.name m2) →
      baKwargs sig m1 = baKwargs sig m2 := by
  intro sig
  induction sig with
  | nil => intro _; rfl
  | cons p ps ih =>
    intro h
    have hp := h p (by simp)
    have hps := fun q hq => h q (List.mem_cons_of_mem p hq)
    cases hk : p.kind with
    | kwOnly =>
      simp only [baKwargs, hk]
      exact canon_congr h
    | posOrKw =>
      cases h2 : lkp p.name m2 with
      | none =>
        simp only [baKwargs, hk, hp, h2]
        exact canon_congr hps
      | some v => simp [baKwargs, hk, hp, h2, ih hps]

theorem keys_map_keydep {α β : Type} (t : String → α → β) (m : List (String × α)) :
    (m.map fun kv => (kv.1, t kv.1 kv.2)).map (·.1) = m.map (·.1) := by
  induction m with
  | nil => rfl
  | cons kv rest ih => simp [ih]

theorem lkp_filter_keyTrue {α : Type} (k : String) (q : String × α → Bool)
    (hq : ∀ kv, kv.1 = k → q kv = true) :
    ∀ (d : List (String × α)), lkp k (d.filter q) = lkp k d := by
  intro d
  induction d with
  | nil => rfl
  | cons kv rest ih =>
    rw [List.filter_cons]
    by_cases hk : kv.1 = k
    · simp [hq kv hk, lkp, hk]
    · cases hqv : q kv <;> simp [lkp, hk, ih]

/-- Dictionary lookup after `d1 | d2`: keys of `d2` win, `d1` is the
fallback. -/
theorem lkp_dunion {α : Type} (k : String) (d1 d2 : List (String × α)) :
    lkp k (dunion d1 d2) =
      match lkp k d2 with
      | some v => some v
      | none => lkp k d1 := by
  unfold dunion
  rw [lkp_append]
  rw [lkp_map_keydep (fun n v => (lkp n d2).getD v)]
  cases h1 : lkp k d1 with
  | some v =>
    cases h2 : lkp k d2 with
    | some w => simp [h2]
    | none => simp [h2, h1]
  | none =>
    rw [lkp_filter_keyTrue k _ (fun kv hk => by simp [hk, h1])]
    cases h2 : lkp k d2 with
    | some w => simp [h2]
    | none => simp [h2, h1]

theorem mergeInject_fst {α : Type} (bc ba : List (String × α)) :
    (mergeInject bc ba).1 = dunion bc ba := rfl

/-- `_build_bound_inject` leaves the decoration-time table untouched: the
`|=` happens on the freshly allocated copy, not on the shared dict. -/
theorem mergeInject_snd {α : Type} (bc ba : List (String × α)) :
    (mergeInject bc ba).2 = bc := rfl

theorem mergeCompose_fst {α : Type} (bc ba : List (String × α)) :
    (mergeCompose bc ba).1 = dunion ba bc := rfl

/-- `_build_bound_compose` leaves the composer table untouched. -/
theorem mergeCompose_snd {α : Type} (bc ba : List (String × α)) :
    (mergeCompose bc ba).2 = bc := rfl

/-! ## The extraction / rebinding roundtrip -/

theorem bindPos_extract {α β : Type} (t : String → α → β) :
    ∀ (sig : Sig) (m : List (String × α)),
      bindPos sig ((baPairs sig m).map fun kv => t kv.1 kv.2) =
        .ok ((baPairs sig m).map fun kv => (kv.1, t kv.1 kv.2)) := by
  intro sig
  induction sig with
  | nil => intro m; simp [baPairs, bindPos]
  | cons p ps ih =>
    intro m
    cases hk : p.kind with
    | kwOnly => simp [baPairs, hk, bindPos]
    | posOrKw =>
      cases h : lkp p.name m with
      | none => simp [baPairs, hk, h, bindPos]
      | some v => simp [baPairs, hk, h, bindPos, ih]

theorem bindKw_ok {α : Type} (sig : Sig) :
    ∀ (kws : List (String × α)) (bound : List String),
      (kws.map (·.1)).Nodup →
      (∀ k ∈ kws.map (·.1), k ∈ namesOf sig) →
      (∀ k ∈ kws.map (·.1), k ∉ bound) →
      bindKw sig bound kws = .ok kws := by
  intro kws
  induction kws with
  | nil => intro bound _ _ _; rfl
  | cons kv rest ih =>
    intro bound hnd hin hnb
    have hk1 : kv.1 ∉ bound := hnb kv.1 (by simp)
    have hk2 : kv.1 ∈ namesOf sig := hin kv.1 (by simp)
    have hrest : bindKw sig (kv.1 :: bound) rest = .ok rest := by
      apply ih
      · exact (List.nodup_cons.mp hnd).2
      · intro k hk; exact hin k (by simp [hk])
      · intro k hk hmem
        rcases List.mem_cons.mp hmem with he | hb
        · subst he; exact (List.nodup_cons.mp hnd).1 hk
        · exact hnb k (by simp [hk]) hb
    obtain ⟨k, v⟩ := kv
    simp only at hk1 hk2 hrest
    simp [bindKw, hk1, hk2, hrest]

/-- The roundtrip: extracting `args`/`kwargs` from a canonical bound
mapping, transforming each value in place, and rebinding with
`bind_partial` reproduces the mapping with the values transformed. -/
theorem bindExtractMap {α β : Type} {sig : Sig} (hnd : SigOk sig)
    {m : List (String × α)} (hm : canon sig m = m) (t : String → α → β) :
    pyBind sig ((baPairs sig m).map fun kv => t kv.1 kv.2)
      ((baKwargs sig m).map fun kv => (kv.1, t kv.1 kv.2)) true =
      .ok (m.map fun kv => (kv.1, t kv.1 kv.2)) := by
  have hcat := baPairs_append_baKwargs sig m
  have hsub : ((canon sig m).map (·.1)).Sublist (namesOf sig) := canon_keys_sublist sig m
  have hcatkeys : (baPairs sig m).map (·.1) ++ (baKwargs sig m).map (·.1) =
      (canon sig m).map (·.1) := by
    rw [← hcat, List.map_append]
  have hndall : ((baPairs sig m).map (·.1) ++ (baKwargs sig m).map (·.1)).Nodup := by
    rw [hcatkeys]; exact hsub.nodup hnd
  have hndK : ((baKwargs sig m).map (·.1)).Nodup := (List.nodup_append.mp hndall).2.1
  have hdisj := (List.nodup_append.mp hndall).2.2
  have hinK : ∀ k ∈ (baKwargs sig m).map (·.1), k ∈ namesOf sig := by
    intro k hk
    apply hsub.subset
    rw [← hcatkeys]
    exact List.mem_append_right _ hk
  have hkw : bindKw sig (((baPairs sig m).map fun kv => (kv.1, t kv.1 kv.2)).map (·.1))
      ((baKwargs sig m).map fun kv => (kv.1, t kv.1 kv.2)) =
      .ok ((baKwargs sig m).map fun kv => (kv.1, t kv.1 kv.2)) := by
    rw [keys_map_keydep]
    apply bindKw_ok
    · rw [keys_map_keydep]; exact hndK
    · rw [keys_map_keydep]; exact hinK
    · rw [keys_map_keydep]
      intro k hk hmem
      exact hdisj hmem hk
  unfold pyBind
  rw [bindPos_extract]
  simp only
  rw [hkw]
  simp only [if_true]
  have : ((baPairs sig m).map fun kv => (kv.1, t kv.1 kv.2)) ++
      ((baKwargs sig m).map fun kv => (kv.1, t kv.1 kv.2)) =
      m.map fun kv => (kv.1, t kv.1 kv.2) := by
    rw [← List.map_append, hcat, hm]
  rw [this, canon_map, hm]

theorem pyBind_ok_canon {α : Type} {sig : Sig} (hnd : SigOk sig)
    {pos : List α} {kw : List (String × α)} {fl : Bool} {m : List (String × α)}
    (h : pyBind sig pos kw fl = .ok m) : canon sig m = m := by
  cases hp : bindPos sig pos with
  | error e => simp [pyBind, hp] at h
  | ok pb =>
    cases hkw : bindKw sig (pb.map (·.1)) kw with
    | error e => simp [pyBind, hp, hkw] at h
    | ok kb =>
      simp only [pyBind, hp, hkw] at h
      split at h
      · cases h; exact canon_idem hnd _
      · split at h
        · cases h; exact canon_idem hnd _
        · simp at h

/-- A successful full bind would also succeed, with the same result, as a
partial bind. -/
theorem pyBind_part_of_full {α : Type} {sig : Sig} {pos : List α}
    {kw : List (String × α)} {m : List (String × α)}
    (h : pyBind sig pos kw false = .ok m) : pyBind sig pos kw true = .ok m := by
  cases hp : bindPos sig pos with
  | error e => simp [pyBind, hp] at h
  | ok pb =>
    cases hkw : bindKw sig (pb.map (·.1)) kw with
    | error e => simp [pyBind, hp, hkw] at h
    | ok kb =>
      simp only [pyBind, hp, hkw] at h ⊢
      simp only [if_true]
      split at h
      · exact h
      · split at h
        · exact h
        · simp at h

theorem lkp_withDefaults_present {sig : Sig} {m : List (String × PyVal)}
    {n : String} {v : PyVal} (hv : lkp n m = some v) (hn : n ∈ namesOf sig) :
    lkp n (withDefaults sig m) = some v := by
  induction sig with
  | nil => simp [namesOf] at hn
  | cons p ps ih =>
    by_cases hp : p.name = n
    · subst hp; simp [withDefaults, hv, lkp]
    · have hn2 : n ∈ namesOf ps := by
        rcases List.mem_cons.mp hn with he | hb
        · exact absurd he.symm hp
        · exact hb
      cases h : lkp p.name m with
      | some w => simp [withDefaults, h, lkp, hp, ih hn2]
      | none =>
        cases hd : p.default with
        | some d => simp [withDefaults, h, hd, lkp, hp, ih hn2]
        | none => simp [withDefaults, h, hd, ih hn2]

theorem lkp_withDefaults_default {sig : Sig} (hnd : SigOk sig)
    {m : List (String × PyVal)} {q : Param} {d : PyVal} (hq : q ∈ sig)
    (habs : lkp q.name m = none) (hd : q.default = some d) :
    lkp q.name (withDefaults sig m) = some d := by
  induction sig with
  | nil => simp at hq
  | cons r rs ih =>
    have hnd2 : SigOk rs := (List.nodup_cons.mp hnd).2
    have hrn : r.name ∉ namesOf rs := (List.nodup_cons.mp hnd).1
    by_cases hr : r.name = q.name
    · have hrq : r = q := by
        rcases List.mem_cons.mp hq with he | hb
        · exact he.symm
        · exfalso
          apply hrn
          rw [hr]
          exact List.mem_map_of_mem (·.name) hb
      subst hrq
      simp [withDefaults, habs, hd, lkp]
    · have hq2 : q ∈ rs := by
        rcases List.mem_cons.mp hq with he | hb
        · exact absurd (by rw [he] : r.name = q.name) hr
        · exact hb
      cases h : lkp r.name m with
      | some w => simp [withDefaults, h, lkp, hr, ih hnd2 hq2]
      | none =>
        cases hrd : r.default with
        | some d2 => simp [withDefaults, h, hrd, lkp, hr, ih hnd2 hq2]
        | none => simp [withDefaults, h, hrd, ih hnd2 hq2]

theorem lkp_eq_none_iff {α : Type} (k : String) (l : List (String × α)) :
    lkp k l = none ↔ k ∉ l.map (·.1) := by
  induction l with
  | nil => simp [lkp]
  | cons kv rest ih =>
    by_cases hk : kv.1 = k
    · simp [lkp, hk]
    · simp [lkp, hk, ih, Ne.symm hk]

theorem lkp_mem_keys_of_some {α : Type} {k : String} {l : List (String × α)} {w : α}
    (h : lkp k l = some w) : k ∈ l.map (·.1) := by
  by_contra hn
  rw [← lkp_eq_none_iff] at hn
  rw [h] at hn
  simp at hn

theorem lkp_append_some {α : Type} {k : String} {l1 : List (String × α)} {v : α}
    (h : lkp k l1 = some v) (l2 : List (String × α)) : lkp k (l1 ++ l2) = some v := by
  induction l1 with
  | nil => simp [lkp] at h
  | cons kv rest ih =>
    obtain ⟨k2, v2⟩ := kv
    simp only [List.cons_append, lkp] at h ⊢
    by_cases hk : k2 = k
    · subst hk
      simpa using h
    · rw [if_neg hk] at h ⊢
      exact ih h

theorem lkp_append_none {α : Type} {k : String} {l1 : List (String × α)}
    (h : lkp k l1 = none) (l2 : List (String × α)) : lkp k (l1 ++ l2) = lkp k l2 := by
  induction l1 with
  | nil => simp
  | cons kv rest ih =>
    obtain ⟨k2, v2⟩ := kv
    simp only [List.cons_append, lkp] at h ⊢
    by_cases hk : k2 = k
    · simp [hk] at h
    · rw [if_neg hk] at h ⊢
      exact ih h

/-- The two-transformation roundtrip: rebinding the extracted positional
values transformed by `t` and the extracted keyword values transformed by
`t2` reproduces the mapping, each value transformed by whichever of
`t`/`t2` applied to its delivery route. -/
theorem bindExtractMap2 {α β : Type} {sig : Sig} (hnd : SigOk sig)
    {m : List (String × α)} (hm : canon sig m = m) (t t2 : String → α → β) :
    pyBind sig ((baPairs sig m).map fun kv => t kv.1 kv.2)
      ((baKwargs sig m).map fun kv => (kv.1, t2 kv.1 kv.2)) true =
      .ok (m.map fun kv =>
        (kv.1, if kv.1 ∈ (baPairs sig m).map (·.1) then t kv.1 kv.2 else t2 kv.1 kv.2)) := by
  have hcat := baPairs_append_baKwargs sig m
  have hsub : ((canon sig m).map (·.1)).Sublist (namesOf sig) := canon_keys_sublist sig m
  have hcatkeys : (baPairs sig m).map (·.1) ++ (baKwargs sig m).map (·.1) =
      (canon sig m).map (·.1) := by
    rw [← hcat, List.map_append]
  have hndall : ((baPairs sig m).map (·.1) ++ (baKwargs sig m).map (·.1)).Nodup := by
    rw [hcatkeys]; exact hsub.nodup hnd
  have hndK : ((baKwargs sig m).map (·.1)).Nodup := (List.nodup_append.mp hndall).2.1
  have hdisj := (List.nodup_append.mp hndall).2.2
  have hinK : ∀ k ∈ (baKwargs sig m).map (·.1), k ∈ namesOf sig := by
    intro k hk
    apply hsub.subset
    rw [← hcatkeys]
    exact List.mem_append_right _ hk
  have hkw : bindKw sig (((baPairs sig m).map fun kv => (kv.1, t kv.1 kv.2)).map (·.1))
      ((baKwargs sig m).map fun kv => (kv.1, t2 kv.1 kv.2)) =
      .ok ((baKwargs sig m).map fun kv => (kv.1, t2 kv.1 kv.2)) := by
    rw [keys_map_keydep]
    apply bindKw_ok
    · rw [keys_map_keydep]; exact hndK
    · rw [keys_map_keydep]; exact hinK
    · rw [keys_map_keydep]
      intro k hk hmem
      exact hdisj hmem hk
  unfold pyBind
  rw [bindPos_extract]
  simp only
  rw [hkw]
  simp only [if_true]
  congr 1
  have hptw : ∀ q ∈ sig, lkp q.name
      (((baPairs sig m).map fun kv => (kv.1, t kv.1 kv.2)) ++
        ((baKwargs sig m).map fun kv => (kv.1, t2 kv.1 kv.2))) =
      lkp q.name (m.map fun kv =>
        (kv.1, if kv.1 ∈ (baPairs sig m).map (·.1) then t kv.1 kv.2 else t2 kv.1 kv.2)) := by
    intro q hq
    have hmemN : q.name ∈ namesOf sig := List.mem_map_of_mem (·.name) hq
    have hcanlk : lkp q.name (canon sig m) = lkp q.name m := by
      rw [lkp_canon hnd, if_pos hmemN]
    cases hv : lkp q.name (baPairs sig m) with
    | some w =>
      have hP : q.name ∈ (baPairs sig m).map (·.1) := lkp_mem_keys_of_some hv
      have hm2 : lkp q.name m = some w := by
        rw [← hcanlk, ← hcat]
        exact lkp_append_some hv _
      have hvT : lkp q.name ((baPairs sig m).map fun kv => (kv.1, t kv.1 kv.2)) =
          some (t q.name w) := by
        rw [lkp_map_keydep t, hv]; rfl
      rw [lkp_append_some hvT,
        lkp_map_keydep (fun n v => if n ∈ (baPairs sig m).map (·.1) then t n v else t2 n v),
        hm2]
      simp [hP]
    | none =>
      have hP : q.name ∉ (baPairs sig m).map (·.1) := (lkp_eq_none_iff _ _).mp hv
      have hm2 : lkp q.name m = lkp q.name (baKwargs sig m) := by
        rw [← hcanlk, ← hcat]
        exact lkp_append_none hv _
      have hvT : lkp q.name ((baPairs sig m).map fun kv => (kv.1, t kv.1 kv.2)) = none := by
        rw [lkp_map_keydep t, hv]; rfl
      rw [lkp_append_none hvT, lkp_map_keydep t2,
        lkp_map_keydep (fun n v => if n ∈ (baPairs sig m).map (·.1) then t n v else t2 n v),
        hm2]
      cases hv2 : lkp q.name (baKwargs sig m) with
      | some w => simp [hP]
      | none => simp
  calc canon sig (((baPairs sig m).map fun kv => (kv.1, t kv.1 kv.2)) ++
        ((baKwargs sig m).map fun kv => (kv.1, t2 kv.1 kv.2)))
      = canon sig (m.map fun kv =>
          (kv.1, if kv.1 ∈ (baPairs sig m).map (·.1) then t kv.1 kv.2 else t2 kv.1 kv.2)) :=
        canon_congr hptw
    _ = (canon sig m).map fun kv =>
          (kv.1, if kv.1 ∈ (baPairs sig m).map (·.1) then t kv.1 kv.2 else t2 kv.1 kv.2) :=
        canon_map (fun n v => if n ∈ (baPairs sig m).map (·.1) then t n v else t2 n v) sig m
    _ = _ := by rw [hm]

/-- On a presence-superset `bb` of `mba`, zipping the two positional
extraction lists pairs, parameter by parameter, `bb`'s entry with `mba`'s
entry (this is the `zip(bb.args, ba.args)` step of the compose merge). -/
theorem zip_baArgs {α : Type} (dflt : α) :
    ∀ (sig : Sig) (bb mba : List (String × α)),
      (∀ p ∈ sig, (lkp p.name mba).isSome → (lkp p.name bb).isSome) →
      (baArgs sig bb).zip (baArgs sig mba) =
        (baPairs sig mba).map fun kv => ((lkp kv.1 bb).getD dflt, kv.2) := by
  intro sig
  induction sig with
  | nil => intro bb mba _; simp [baArgs, baPairs]
  | cons p ps ih =>
    intro bb mba hpres
    cases hk : p.kind with
    | kwOnly => simp [baArgs, baPairs, hk]
    | posOrKw =>
      cases hmb : lkp p.name mba with
      | none => simp [baArgs, baPairs, hk, hmb]
      | some w =>
        have hbb : (lkp p.name bb).isSome := hpres p (by simp) (by simp [hmb])
        cases hu : lkp p.name bb with
        | none => rw [hu] at hbb; simp at hbb
        | some u =>
          have ihr := ih bb mba (fun q hq => hpres q (List.mem_cons_of_mem p hq))
          simp only [baArgs, baPairs, hk, hmb, hu, List.map_cons, List.zip_cons_cons] at ihr ⊢
          simp [ihr, hu]

/-- If the merged binding maps parameter `p` to an untagged call-time
value `v`, and the per-value production step passes untagged values
through, then the underlying function receives `v` for `p` (through the
rebind and the underlying call's own binding and default filling). -/
theorem deliveredLookupPlain {sig : Sig} (hnd : SigOk sig) {bb : List (String × BVal)}
    (gv : BVal → PyVal) {p : String} {v : PyVal}
    (hp : p ∈ namesOf sig) (hpv : lkp p bb = some (.plain v)) (hgv : gv (.plain v) = v)
    {m2 m3 : List (String × PyVal)}
    (hbind : pyBind sig ((baPairs sig bb).map fun kv => gv kv.2)
      ((baKwargs sig bb).map fun kv => (kv.1, gv kv.2)) true = .ok m2)
    (hfull : pyBind sig (baArgs sig m2) (baKwargs sig m2) false = .ok m3) :
    lkp p (withDefaults sig m3) = some v := by
  have hlk : ∀ q ∈ sig, lkp q.name bb = lkp q.name (canon sig bb) := by
    intro q hq
    have hmem : q.name ∈ namesOf sig := List.mem_map_of_mem (·.name) hq
    rw [lkp_canon hnd, if_pos hmem]
  have hbp : baPairs sig bb = baPairs sig (canon sig bb) := baPairs_congr hlk
  have hbk : baKwargs sig bb = baKwargs sig (canon sig bb) := baKwargs_congr hlk
  have hrt : pyBind sig ((baPairs sig (canon sig bb)).map fun kv => gv kv.2)
      ((baKwargs sig (canon sig bb)).map fun kv => (kv.1, gv kv.2)) true =
      .ok ((canon sig bb).map fun kv => (kv.1, gv kv.2)) :=
    bindExtractMap hnd (canon_idem hnd bb) (fun _ bv => gv bv)
  rw [hbp, hbk, hrt] at hbind
  have hm2 : m2 = (canon sig bb).map fun kv => (kv.1, gv kv.2) :=
    (Except.ok.inj hbind).symm
  obtain ⟨q, hq, hqn⟩ : ∃ q ∈ sig, q.name = p := by
    simpa [namesOf] using hp
  have hcp : lkp p (canon sig bb) = some (.plain v) := by
    have := hlk q hq
    rw [hqn] at this
    rw [← this]
    exact hpv
  have hkd : lkp p ((canon sig bb).map fun kv => (kv.1, gv kv.2)) =
      (lkp p (canon sig bb)).map (fun bv => gv bv) :=
    lkp_map_keydep (fun _ bv => gv bv) p (canon sig bb)
  have hpm2 : lkp p m2 = some v := by
    rw [hm2, hkd, hcp]
    simp [hgv]
  have hm2c : canon sig m2 = m2 := by
    have hcm : canon sig ((canon sig bb).map fun kv => (kv.1, gv kv.2)) =
        (canon sig (canon sig bb)).map fun kv => (kv.1, gv kv.2) :=
      canon_map (fun _ bv => gv bv) sig (canon sig bb)
    rw [hm2, hcm, canon_idem hnd]
  have htr := pyBind_part_of_full hfull
  have hrt2 : pyBind sig ((baPairs sig m2).map fun kv => kv.2)
      ((baKwargs sig m2).map fun kv => (kv.1, kv.2)) true =
      .ok (m2.map fun kv => (kv.1, kv.2)) :=
    bindExtractMap hnd hm2c (fun _ w => w)
  have heta2 : (baKwargs sig m2).map (fun kv => (kv.1, kv.2)) = baKwargs sig m2 := by simp
  have heta3 : m2.map (fun kv => (kv.1, kv.2)) = m2 := by simp
  rw [heta2, heta3] at hrt2
  have hargs : (baPairs sig m2).map (fun kv => kv.2) = baArgs sig m2 := rfl
  rw [hargs] at hrt2
  rw [htr] at hrt2
  have hm3 : m3 = m2 := Except.ok.inj hrt2
  rw [hm3]
  exact lkp_withDefaults_present hpm2 hp

/-- If the caller did not supply parameter `q` at all, then whatever the
per-value transformations do to the supplied parameters, the underlying
function receives `q`'s declared default. -/
theorem deliveredLookupAbsent {sig : Sig} (hnd : SigOk sig)
    {mba : List (String × PyVal)} (hmba : canon sig mba = mba)
    {q : Param} {d : PyVal} (hq : q ∈ sig) (hqd : q.default = some d)
    (habs : lkp q.name mba = none)
    (t t2 : String → PyVal → PyVal) {m2 m3 : List (String × PyVal)}
    (hbind : pyBind sig ((baPairs sig mba).map fun kv => t kv.1 kv.2)
      ((baKwargs sig mba).map fun kv => (kv.1, t2 kv.1 kv.2)) true = .ok m2)
    (hfull : pyBind sig (baArgs sig m2) (baKwargs sig m2) false = .ok m3) :
    lkp q.name (withDefaults sig m3) = some d := by
  have hrt := bindExtractMap2 hnd hmba t t2
  rw [hrt] at hbind
  have hm2 : m2 = mba.map fun kv =>
      (kv.1, if kv.1 ∈ (baPairs sig mba).map (·.1) then t kv.1 kv.2 else t2 kv.1 kv.2) :=
    (Except.ok.inj hbind).symm
  have hkd : lkp q.name (mba.map fun kv =>
      (kv.1, if kv.1 ∈ (baPairs sig mba).map (·.1) then t kv.1 kv.2 else t2 kv.1 kv.2)) =
      (lkp q.name mba).map
        (fun w => if q.name ∈ (baPairs sig mba).map (·.1) then t q.name w else t2 q.name w) :=
    lkp_map_keydep
      (fun n w => if n ∈ (baPairs sig mba).map (·.1) then t n w else t2 n w) q.name mba
  have habs2 : lkp q.name m2 = none := by
    rw [hm2, hkd, habs]
    rfl
  have hm2c : canon sig m2 = m2 := by
    have hcm : canon sig (mba.map fun kv =>
        (kv.1, if kv.1 ∈ (baPairs sig mba).map (·.1) then t kv.1 kv.2 else t2 kv.1 kv.2)) =
        (canon sig mba).map fun kv =>
          (kv.1, if kv.1 ∈ (baPairs sig mba).map (·.1) then t kv.1 kv.2 else t2 kv.1 kv.2) :=
      canon_map
        (fun n w => if n ∈ (baPairs sig mba).map (·.1) then t n w else t2 n w) sig mba
    rw [hm2, hcm, hmba]
  have htr := pyBind_part_of_full hfull
  have hrt2 : pyBind sig ((baPairs sig m2).map fun kv => kv.2)
      ((baKwargs sig m2).map fun kv => (kv.1, kv.2)) true =
      .ok (m2.map fun kv => (kv.1, kv.2)) :=
    bindExtractMap hnd hm2c (fun _ w => w)
  have heta2 : (baKwargs sig m2).map (fun kv => (kv.1, kv.2)) = baKwargs sig m2 := by simp
  have heta3 : m2.map (fun kv => (kv.1, kv.2)) = m2 := by simp
  rw [heta2, heta3] at hrt2
  have hargs : (baPairs sig m2).map (fun kv => kv.2) = baArgs sig m2 := rfl
  rw [hargs] at hrt2
  rw [htr] at hrt2
  have hm3 : m3 = m2 := Except.ok.inj hrt2
  rw [hm3]
  exact lkp_withDefaults_default hnd hq habs2 hqd

instance {ε α : Type} [DecidableEq ε] [DecidableEq α] : DecidableEq (Except ε α) :=
  fun a b =>
    match a, b with
    | .ok x, .ok y =>
      if h : x = y then .isTrue (by rw [h])
      else .isFalse (by intro hc; cases hc; exact h rfl)
    | .error e, .error f =>
      if h : e = f then .isTrue (by rw [h])
      else .isFalse (by intro hc; cases hc; exact h rfl)
    | .ok _, .error _ => .isFalse (by intro hc; cases hc)
    | .error _, .ok _ => .isFalse (by intro hc; cases hc)

instance {α : Type} [DecidableEq α] : DecidableEq (M α) :=
  inferInstanceAs (DecidableEq (Except PyErr α × List Ev))

/-! ## Concrete fixtures for the documented examples -/

/-- Callable behaviour for the doctest examples: id 0 is `lambda: 7` as a
zero-argument callable and `lambda x: x+1` as a one-argument callable;
id 1 is `lambda y: y+2`. -/
def exEnv : Env where
  call0 id := if id == 0 then .ok (.vint 7) else .error (.userError 99)
  call1 id a :=
    if id == 0 then
      match a with
      | .vint n => .ok (.vint (n + 1))
      | _ => .error (.userError 98)
    else if id == 1 then
      match a with
      | .vint n => .ok (.vint (n + 2))
      | _ => .error (.userError 97)
    else .error (.userError 96)

/-- `def foo(arg1, arg2, arg3='ignored')`. -/
def fooSig : Sig :=
  [⟨"arg1", .posOrKw, none⟩, ⟨"arg2", .posOrKw, none⟩,
   ⟨"arg3", .posOrKw, some (.vstr "ignored")⟩]

/-- The injector table `injects(arg1=lambda: 7, arg2=6, arg3=5)` builds at
decoration time. -/
def fooTable : List (String × BVal) :=
  [("arg1", .wrapped (.vfunc 0)), ("arg2", .wrapped (.vint 6)),
   ("arg3", .wrapped (.vint 5))]

/-- `foo` returns its three arguments as a (nested-pair) tuple. -/
def fooOut : FnOut := fun m =>
  .ok (.vpair ((lkp "arg1" m).getD .vnone)
    (.vpair ((lkp "arg2" m).getD .vnone) ((lkp "arg3" m).getD .vnone)))

/-- `def foo(x, y=2)`. -/
def cmpSig : Sig := [⟨"x", .posOrKw, none⟩, ⟨"y", .posOrKw, some (.vint 2)⟩]

/-- The composer table `composes(lambda x: x+1, y=lambda y: y+2)`. -/
def cmpTable : List (String × PyVal) := [("x", .vfunc 0), ("y", .vfunc 1)]

/-- `foo` returns `(x, y)`. -/
def cmpOut : FnOut := fun m =>
  .ok (.vpair ((lkp "x" m).getD .vnone) ((lkp "y" m).getD .vnone))

/-- `async def foo(arg1)` returning its argument. -/
def oneSig : Sig := [⟨"arg1", .posOrKw, none⟩]

/-- An environment whose zero-argument callable 0 returns a coroutine
object (an `async` injector), resolving to 7. -/
def coroEnv : Env where
  call0 _ := .ok (.vcoro (.vint 7))
  call1 _ _ := .ok (.vcoro (.vint 9))

/-- The table `injects(arg1=async_lambda)`. -/
def oneTable : List (String × BVal) := [("arg1", .wrapped (.vfunc 0))]

/-- `foo` returns `arg1` as received. -/
def oneOut : FnOut := fun m => .ok ((lkp "arg1" m).getD .vnone)

/-- An environment whose callable 0 produces a synchronous
context-manager object (id 5) yielding 7. -/
def ctxEnv : Env where
  call0 _ := .ok (.vctx 5 (.vint 7) false false)
  call1 _ _ := .error (.userError 1)

/-- `def foo(arg1, *, arg2)`: `arg2` is keyword-only, so it is delivered
through `BoundArguments.kwargs`. -/
def kwSig : Sig := [⟨"arg1", .posOrKw, none⟩, ⟨"arg2", .kwOnly, none⟩]

/-- The table `injects.ctx(arg2=ctx)`. -/
def kwTable : List (String × BVal) := [("arg2", .wrapped (.vfunc 0))]

/-- `foo` returns `(arg1, arg2)`. -/
def kwOut : FnOut := fun m =>
  .ok (.vpair ((lkp "arg1" m).getD .vnone) ((lkp "arg2" m).getD .vnone))

/-! ## Per-variant delivered-value helpers -/

/-- The pure value of `_call_bound_inject` on a successful run. -/
def cbitS (env : Env) (bv : BVal) : PyVal × Bool × PyVal :=
  match (callBoundInject env bv).1 with
  | .ok t => t
  | .error _ => (.vnone, false, .vbool false)

/-- The pure value of `_call_bound_inject` followed by the async
resolution step on a successful run. -/
def cbitA (env : Env) (bv : BVal) : PyVal :=
  match (mbind (callBoundInject env bv) resolveStep).1 with
  | .ok w => w
  | .error _ => .vnone

theorem cbitS_of_ok {env : Env} {bv : BVal} {t : PyVal × Bool × PyVal}
    (h : (callBoundInject env bv).1 = .ok t) : t = cbitS env bv := by
  simp [cbitS, h]

theorem cbitA_of_ok {env : Env} {bv : BVal} {w : PyVal}
    (h : (mbind (callBoundInject env bv) resolveStep).1 = .ok w) : w = cbitA env bv := by
  simp [cbitA, h]

/-- Call-time override through the synchronous `injects` wrapper: if the
caller's own binding supplies `p` with `v`, every successful delivery
hands `v` to the wrapped function for `p`. -/
theorem injectsSyncDeliveredOverride {env : Env} {sig : Sig} (hnd : SigOk sig)
    {table : List (String × BVal)} {pos : List PyVal} {kw : List (String × PyVal)}
    {mba : List (String × BVal)} {p : String} {v : PyVal}
    (hcall : bindCallerI sig pos kw = .ok mba)
    (hpv : lkp p mba = some (.plain v))
    {m : List (String × PyVal)}
    (hrun : (injectsSyncDelivered env sig table pos kw).1.1 = .ok m) :
    lkp p m = some v := by
  have hcanon : canon sig mba = mba :=
    pyBind_ok_canon hnd
      (show pyBind sig (pos.map BVal.plain)
        (kw.map fun kv => (kv.1, BVal.plain kv.2)) true = .ok mba from hcall)
  have hpN : p ∈ namesOf sig := by
    have hmem : p ∈ mba.map (·.1) := lkp_mem_keys_of_some hpv
    rw [← hcanon] at hmem
    exact (canon_keys_sublist sig mba).subset hmem
  have hbb : lkp p (dunion table mba) = some (.plain v) := by
    simp [lkp_dunion, hpv]
  simp only [injectsSyncDelivered, hcall, mergeInject_fst] at hrun
  obtain ⟨ts, hts, hrun2⟩ := mbind_ok_inv hrun
  obtain ⟨kts, hkts, hrun3⟩ := mbind_ok_inv hrun2
  have hts_eq : ts = (baArgs sig (dunion table mba)).map (cbitS env) :=
    mmapM_fst_ok_eq_map (fun a b h => cbitS_of_ok h) hts
  have hkts_eq : kts = (baKwargs sig (dunion table mba)).map
      (fun kv => (kv.1, cbitS env kv.2)) := by
    apply mmapM_fst_ok_eq_map (fun kv b h => ?_) hkts
    obtain ⟨t, ht, hret⟩ := mbind_ok_inv h
    have hb : b = (kv.1, t) := by simpa [mret] using hret.symm
    rw [hb, cbitS_of_ok ht]
  cases hb2 : pyBind sig (ts.map (·.1)) (kts.map fun kt => (kt.1, kt.2.1)) true with
  | error e =>
    rw [hb2] at hrun3
    simp [throwM] at hrun3
  | ok m2 =>
    rw [hb2] at hrun3
    have hrun4 : (invokeArgs sig (baArgs sig m2) (baKwargs sig m2)).1 = .ok m := hrun3
    have hargs_eq : ts.map (·.1) =
        (baPairs sig (dunion table mba)).map fun kv => (cbitS env kv.2).1 := by
      rw [hts_eq]
      simp only [baArgs, List.map_map]
      rfl
    have hkws_eq : (kts.map fun kt => (kt.1, kt.2.1)) =
        (baKwargs sig (dunion table mba)).map fun kv => (kv.1, (cbitS env kv.2).1) := by
      rw [hkts_eq]
      simp only [List.map_map]
      rfl
    rw [hargs_eq, hkws_eq] at hb2
    cases hfb : pyBind sig (baArgs sig m2) (baKwargs sig m2) false with
    | error e =>
      have hx : ((throwM e : M (List (String × PyVal)))).1 = .ok m := by
        have h4 := hrun4
        unfold invokeArgs at h4
        rw [hfb] at h4
        exact h4
      simp [throwM] at hx
    | ok m3 =>
      have hx : (mret (withDefaults sig m3)).1 = .ok m := by
        have h4 := hrun4
        unfold invokeArgs at h4
        rw [hfb] at h4
        exact h4
      have hm : m = withDefaults sig m3 := by simpa [mret] using hx.symm
      rw [hm]
      exact deliveredLookupPlain hnd (fun bv => (cbitS env bv).1) hpN hbb rfl hb2 hfb

/-- Call-time override through the asynchronous `injects` wrapper. -/
theorem injectsAsyncDeliveredOverride {env : Env} {sig : Sig} (hnd : SigOk sig)
    {table : List (String × BVal)} {pos : List PyVal} {kw : List (String × PyVal)}
    {mba : List (String × BVal)} {p : String} {v : PyVal}
    (hcall : bindCallerI sig pos kw = .ok mba)
    (hpv : lkp p mba = some (.plain v))
    {m : List (String × PyVal)}
    (hrun : (injectsAsyncDelivered env sig table pos kw).1.1 = .ok m) :
    lkp p m = some v := by
  have hcanon : canon sig mba = mba :=
    pyBind_ok_canon hnd
      (show pyBind sig (pos.map BVal.plain)
        (kw.map fun kv => (kv.1, BVal.plain kv.2)) true = .ok mba from hcall)
  have hpN : p ∈ namesOf sig := by
    have hmem : p ∈ mba.map (·.1) := lkp_mem_keys_of_some hpv
    rw [← hcanon] at hmem
    exact (canon_keys_sublist sig mba).subset hmem
  have hbb : lkp p (dunion table mba) = some (.plain v) := by
    simp [lkp_dunion, hpv]
  simp only [injectsAsyncDelivered, hcall, mergeInject_fst] at hrun
  obtain ⟨args, hargs, hrun2⟩ := mbind_ok_inv hrun
  obtain ⟨kws, hkws, hrun3⟩ := mbind_ok_inv hrun2
  have hargs_eq : args = (baArgs sig (dunion table mba)).map (cbitA env) :=
    mmapM_fst_ok_eq_map (fun a b h => cbitA_of_ok h) hargs
  have hkws_eq : kws = (baKwargs sig (dunion table mba)).map
      (fun kv => (kv.1, cbitA env kv.2)) := by
    apply mmapM_fst_ok_eq_map (fun kv b h => ?_) hkws
    obtain ⟨t, ht, hrest⟩ := mbind_ok_inv h
    obtain ⟨w, hw, hret⟩ := mbind_ok_inv hrest
    have hb : b = (kv.1, w) := by simpa [mret] using hret.symm
    have hmb : (mbind (callBoundInject env kv.2) resolveStep).1 = .ok w := by
      rw [mbind_fst_ok ht]
      exact hw
    rw [hb, cbitA_of_ok hmb]
  cases hb2 : pyBind sig args kws true with
  | error e =>
    rw [hb2] at hrun3
    simp [throwM] at hrun3
  | ok m2 =>
    rw [hb2] at hrun3
    have hrun4 : (invokeArgs sig (baArgs sig m2) (baKwargs sig m2)).1 = .ok m := hrun3
    have hargs_eq2 : args =
        (baPairs sig (dunion table mba)).map fun kv => cbitA env kv.2 := by
      rw [hargs_eq]
      simp only [baArgs, List.map_map]
      rfl
    have hkws_eq2 : kws =
        (baKwargs sig (dunion table mba)).map fun kv => (kv.1, cbitA env kv.2) := hkws_eq
    rw [hargs_eq2, hkws_eq2] at hb2
    cases hfb : pyBind sig (baArgs sig m2) (baKwargs sig m2) false with
    | error e =>
      have hx : ((throwM e : M (List (String × PyVal)))).1 = .ok m := by
        have h4 := hrun4
        unfold invokeArgs at h4
        rw [hfb] at h4
        exact h4
      simp [throwM] at hx
    | ok m3 =>
      have hx : (mret (withDefaults sig m3)).1 = .ok m := by
        have h4 := hrun4
        unfold invokeArgs at h4
        rw [hfb] at h4
        exact h4
      have hm : m = withDefaults sig m3 := by simpa [mret] using hx.symm
      rw [hm]
      exact deliveredLookupPlain hnd (fun bv => cbitA env bv) hpN hbb rfl hb2 hfb

/-- The pure value of the compose `_call` on a successful run. -/
def cctS (env : Env) (c a : PyVal) : PyVal × Bool × PyVal :=
  match (ccall env c a).1 with
  | .ok t => t
  | .error _ => (.vnone, false, .vbool false)

/-- The pure value of the compose `_call` followed by the async
resolution step on a successful run. -/
def cctA (env : Env) (c a : PyVal) : PyVal :=
  match (mbind (ccall env c a) resolveStep).1 with
  | .ok w => w
  | .error _ => .vnone

theorem cctS_of_ok {env : Env} {c a : PyVal} {t : PyVal × Bool × PyVal}
    (h : (ccall env c a).1 = .ok t) : t = cctS env c a := by
  simp [cctS, h]

theorem cctA_of_ok {env : Env} {c a : PyVal} {w : PyVal}
    (h : (mbind (ccall env c a) resolveStep).1 = .ok w) : w = cctA env c a := by
  simp [cctA, h]

theorem lkp_dunion_isSome {α : Type} {n : String} {d1 d2 : List (String × α)}
    (h : (lkp n d2).isSome) : (lkp n (dunion d1 d2)).isSome := by
  cases ht : lkp n d2 with
  | none => rw [ht] at h; simp at h
  | some w => simp [lkp_dunion, ht]

/-- Default passthrough through the synchronous `composes` wrapper: a
parameter the caller did not supply reaches the wrapped function with its
declared default, untransformed. -/
theorem composesSyncDeliveredDefault {env : Env} {sig : Sig} (hnd : SigOk sig)
    {table : List (String × PyVal)} {pos : List PyVal} {kw : List (String × PyVal)}
    {mba : List (String × PyVal)} {q : Param} {d : PyVal}
    (hcall : pyBind sig pos kw false = .ok mba)
    (hq : q ∈ sig) (hqd : q.default = some d) (habs : lkp q.name mba = none)
    {m : List (String × PyVal)}
    (hrun : (composesSyncDelivered env sig table pos kw).1.1 = .ok m) :
    lkp q.name m = some d := by
  have hmba : canon sig mba = mba := pyBind_ok_canon hnd hcall
  have hpres : ∀ r ∈ sig, (lkp r.name mba).isSome →
      (lkp r.name (dunion mba table)).isSome := by
    intro r _ hsome
    cases ht : lkp r.name table with
    | some w => simp [lkp_dunion, ht]
    | none => simpa [lkp_dunion, ht] using hsome
  have hzip := zip_baArgs PyVal.vnone sig (dunion mba table) mba hpres
  simp only [composesSyncDelivered, hcall, mergeCompose_fst] at hrun
  obtain ⟨ts, hts, hrun2⟩ := mbind_ok_inv hrun
  obtain ⟨kts, hkts, hrun3⟩ := mbind_ok_inv hrun2
  have hts_eq : ts = ((baArgs sig (dunion mba table)).zip (baArgs sig mba)).map
      (fun ca => cctS env ca.1 ca.2) :=
    mmapM_fst_ok_eq_map (fun ca b h => cctS_of_ok h) hts
  have hkts_eq : kts = (baKwargs sig mba).map
      (fun kv => (kv.1,
        cctS env ((lkp kv.1 (baKwargs sig (dunion mba table))).getD PyVal.vnone) kv.2)) := by
    apply mmapM_fst_ok_eq_map (fun kv b h => ?_) hkts
    obtain ⟨t, ht, hret⟩ := mbind_ok_inv h
    have hb : b = (kv.1, t) := by simpa [mret] using hret.symm
    rw [hb, cctS_of_ok ht]
  cases hb2 : pyBind sig (ts.map (·.1)) (kts.map fun kt => (kt.1, kt.2.1)) false with
  | error e =>
    rw [hb2] at hrun3
    simp [throwM] at hrun3
  | ok m2 =>
    rw [hb2] at hrun3
    have hrun4 : (invokeArgs sig (baArgs sig m2) (baKwargs sig m2)).1 = .ok m := hrun3
    have hargs_eq : ts.map (·.1) = (baPairs sig mba).map fun kv =>
        (cctS env ((lkp kv.1 (dunion mba table)).getD PyVal.vnone) kv.2).1 := by
      rw [hts_eq, hzip]
      simp only [List.map_map]
      rfl
    have hkws_eq : (kts.map fun kt => (kt.1, kt.2.1)) = (baKwargs sig mba).map fun kv =>
        (kv.1,
          (cctS env ((lkp kv.1 (baKwargs sig (dunion mba table))).getD PyVal.vnone) kv.2).1) := by
      rw [hkts_eq]
      simp only [List.map_map]
      rfl
    rw [hargs_eq, hkws_eq] at hb2
    have hb2p := pyBind_part_of_full hb2
    cases hfb : pyBind sig (baArgs sig m2) (baKwargs sig m2) false with
    | error e =>
      have hx : ((throwM e : M (List (String × PyVal)))).1 = .ok m := by
        have h4 := hrun4
        unfold invokeArgs at h4
        rw [hfb] at h4
        exact h4
      simp [throwM] at hx
    | ok m3 =>
      have hx : (mret (withDefaults sig m3)).1 = .ok m := by
        have h4 := hrun4
        unfold invokeArgs at h4
        rw [hfb] at h4
        exact h4
      have hm : m = withDefaults sig m3 := by simpa [mret] using hx.symm
      rw [hm]
      exact deliveredLookupAbsent hnd hmba hq hqd habs
        (fun n a => (cctS env ((lkp n (dunion mba table)).getD PyVal.vnone) a).1)
        (fun n a =>
          (cctS env ((lkp n (baKwargs sig (dunion mba table))).getD PyVal.vnone) a).1)
        hb2p hfb

/-- Default passthrough through the asynchronous `composes` wrapper. -/
theorem composesAsyncDeliveredDefault {env : Env} {sig : Sig} (hnd : SigOk sig)
    {table : List (String × PyVal)} {pos : List PyVal} {kw : List (String × PyVal)}
    {mba : List (String × PyVal)} {q : Param} {d : PyVal}
    (hcall : pyBind sig pos kw false = .ok mba)
    (hq : q ∈ sig) (hqd : q.default = some d) (habs : lkp q.name mba = none)
    {m : List (String × PyVal)}
    (hrun : (composesAsyncDelivered env sig table pos kw).1.1 = .ok m) :
    lkp q.name m = some d := by
  have hmba : canon sig mba = mba := pyBind_ok_canon hnd hcall
  have hpres : ∀ r ∈ sig, (lkp r.name mba).isSome →
      (lkp r.name (dunion mba table)).isSome := by
    intro r _ hsome
    cases ht : lkp r.name table with
    | some w => simp [lkp_dunion, ht]
    | none => simpa [lkp_dunion, ht] using hsome
  have hzip := zip_baArgs PyVal.vnone sig (dunion mba table) mba hpres
  simp only [composesAsyncDelivered, hcall, mergeCompose_fst] at hrun
  obtain ⟨args, hargs, hrun2⟩ := mbind_ok_inv hrun
  obtain ⟨kws, hkws, hrun3⟩ := mbind_ok_inv hrun2
  have hargs_eq : args = ((baArgs sig (dunion mba table)).zip (baArgs sig mba)).map
      (fun ca => cctA env ca.1 ca.2) :=
    mmapM_fst_ok_eq_map (fun ca b h => cctA_of_ok h) hargs
  have hkws_eq : kws = (baKwargs sig mba).map
      (fun kv => (kv.1,
        cctA env ((lkp kv.1 (baKwargs sig (dunion mba table))).getD PyVal.vnone) kv.2)) := by
    apply mmapM_fst_ok_eq_map (fun kv b h => ?_) hkws
    obtain ⟨t, ht, hrest⟩ := mbind_ok_inv h
    obtain ⟨w, hw, hret⟩ := mbind_ok_inv hrest
    have hb : b = (kv.1, w) := by simpa [mret] using hret.symm
    have hmb : (mbind (ccall env
        ((lkp kv.1 (baKwargs sig (dunion mba table))).getD PyVal.vnone) kv.2)
          resolveStep).1 = .ok w := by
      rw [mbind_fst_ok ht]
      exact hw
    rw [hb, cctA_of_ok hmb]
  cases hb2 : pyBind sig args kws false with
  | error e =>
    rw [hb2] at hrun3
    simp [throwM] at hrun3
  | ok m2 =>
    rw [hb2] at hrun3
    have hrun4 : (invokeArgs sig (baArgs sig m2) (baKwargs sig m2)).1 = .ok m := hrun3
    have hargs_eq2 : args = (baPairs sig mba).map fun kv =>
        cctA env ((lkp kv.1 (dunion mba table)).getD PyVal.vnone) kv.2 := by
      rw [hargs_eq, hzip]
      simp only [List.map_map]
      rfl
    have hkws_eq2 : kws = (baKwargs sig mba).map fun kv =>
        (kv.1, cctA env ((lkp kv.1 (baKwargs sig (dunion mba table))).getD PyVal.vnone) kv.2) :=
      hkws_eq
    rw [hargs_eq2, hkws_eq2] at hb2
    have hb2p := pyBind_part_of_full hb2
    cases hfb : pyBind sig (baArgs sig m2) (baKwargs sig m2) false with
    | error e =>
      have hx : ((throwM e : M (List (String × PyVal)))).1 = .ok m := by
        have h4 := hrun4
        unfold invokeArgs at h4
        rw [hfb] at h4
        exact h4
      simp [throwM] at hx
    | ok m3 =>
      have hx : (mret (withDefaults sig m3)).1 = .ok m := by
        have h4 := hrun4
        unfold invokeArgs at h4
        rw [hfb] at h4
        exact h4
      have hm : m = withDefaults sig m3 := by simpa [mret] using hx.symm
      rw [hm]
      exact deliveredLookupAbsent hnd hmba hq hqd habs
        (fun n a => cctA env ((lkp n (dunion mba table)).getD PyVal.vnone) a)
        (fun n a => cctA env ((lkp n (baKwargs sig (dunion mba table))).getD PyVal.vnone) a)
        hb2p hfb

/-! ## Trace lemmas for resource release -/

/-- An execution that performs no release of its own (releases are only
ever emitted by the surrounding `ExitStack` on the way out). -/
def NoRel {α : Type} (x : M α) : Prop := releaseIds x.2 = []

theorem releaseIds_append (l1 l2 : List Ev) :
    releaseIds (l1 ++ l2) = releaseIds l1 ++ releaseIds l2 :=
  List.filterMap_append l1 l2 _

theorem enterIds_append (l1 l2 : List Ev) :
    enterIds (l1 ++ l2) = enterIds l1 ++ enterIds l2 :=
  List.filterMap_append l1 l2 _

theorem releaseIds_map_release (l : List Nat) :
    releaseIds (l.map Ev.release) = l := by
  induction l with
  | nil => rfl
  | cons a as ih => simp [releaseIds, List.filterMap_cons] at ih ⊢; exact ih

theorem enterIds_map_release (l : List Nat) :
    enterIds (l.map Ev.release) = [] := by
  induction l with
  | nil => rfl
  | cons a as ih => simp [enterIds, List.filterMap_cons] at ih ⊢

theorem noRel_mret {α : Type} (a : α) : NoRel (mret a) := rfl

theorem noRel_throwM {α : Type} (e : PyErr) : NoRel (throwM e : M α) := rfl

theorem noRel_liftE {α : Type} (x : Except PyErr α) : NoRel (liftE x) := rfl

theorem noRel_mbind {α β : Type} {x : M α} {f : α → M β}
    (hx : NoRel x) (hf : ∀ a, NoRel (f a)) : NoRel (mbind x f) := by
  obtain ⟨r, evs⟩ := x
  cases r with
  | ok a =>
    have : releaseIds (evs ++ (f a).2) = [] := by
      rw [releaseIds_append]
      simp only [NoRel] at hx
      rw [hx, hf a]
      rfl
    simpa [NoRel, mbind] using this
  | error e => simpa [NoRel, mbind] using hx

theorem noRel_mmapM {α β : Type} {f : α → M β} (hf : ∀ a, NoRel (f a)) :
    ∀ (l : List α), NoRel (mmapM f l) := by
  intro l
  induction l with
  | nil => exact noRel_mret []
  | cons a as ih =>
    exact noRel_mbind (hf a) fun b => noRel_mbind ih fun bs => noRel_mret _

theorem noRel_pyCall0 (env : Env) (c : PyVal) : NoRel (pyCall0 env c) := by
  unfold pyCall0
  cases callId c with
  | none => exact noRel_throwM _
  | some id => simp [NoRel, releaseIds, List.filterMap_cons]

theorem noRel_pyCall1 (env : Env) (c a : PyVal) : NoRel (pyCall1 env c a) := by
  unfold pyCall1
  cases callId c with
  | none => exact noRel_throwM _
  | some id => simp [NoRel, releaseIds, List.filterMap_cons]

theorem noRel_callBoundInject (env : Env) (bv : BVal) :
    NoRel (callBoundInject env bv) := by
  cases bv with
  | plain a => exact noRel_mret _
  | wrapped v =>
    unfold callBoundInject
    by_cases h : pyCallable v
    · simp only [h, if_true]
      exact noRel_mbind (noRel_pyCall0 env v) fun r => noRel_mret _
    · simp only [h, if_false]
      exact noRel_mret _

theorem noRel_ccall (env : Env) (c a : PyVal) : NoRel (ccall env c a) := by
  unfold ccall
  by_cases h : (pyIs c a || pyIs c PyVal.vnone) = true
  · simp only [h, if_true]
    exact noRel_mret _
  · simp only [h, if_false]
    exact noRel_mbind (noRel_pyCall1 env c a) fun r => noRel_mret _

theorem noRel_pyAwait (v : PyVal) : NoRel (pyAwait v) := by
  cases v <;> simp [pyAwait, NoRel, mbind, emitE, mret, releaseIds,
    List.filterMap_cons, throwM]

theorem noRel_resolveStep (t : PyVal × Bool × PyVal) : NoRel (resolveStep t) := by
  unfold resolveStep
  by_cases h : isCoroutine t.2.2 = true
  · simp only [h, if_true]
    exact noRel_pyAwait t.1
  · simp only [h, if_false]
    exact noRel_mret _

theorem noRel_pyEnterS (v : PyVal) : NoRel (pyEnterS v) := by
  cases v with
  | vctx id inner ia fails =>
    by_cases hia : ia = true
    · simp [pyEnterS, hia, throwM, NoRel, releaseIds]
    · by_cases hf : fails = true
      · simp [pyEnterS, hia, hf, throwM, NoRel, releaseIds]
      · simp [pyEnterS, hia, hf, NoRel, mbind, emitE, mret, releaseIds,
          List.filterMap_cons]
  | vnone => exact noRel_throwM _
  | vbool b => exact noRel_throwM _
  | vint n => exact noRel_throwM _
  | vstr s => exact noRel_throwM _
  | vpair a b => exact noRel_throwM _
  | vfunc id => exact noRel_throwM _
  | vobj id cls => exact noRel_throwM _
  | vcoro w => exact noRel_throwM _

theorem noRel_pyEnterA (v : PyVal) : NoRel (pyEnterA v) := by
  cases v with
  | vctx id inner ia fails =>
    cases ia with
    | true =>
      by_cases hf : fails = true
      · simp [pyEnterA, hf, throwM, NoRel, releaseIds]
      · simp [pyEnterA, hf, NoRel, mbind, emitE, mret, releaseIds,
          List.filterMap_cons]
    | false => exact noRel_pyEnterS _
  | vnone => exact noRel_pyEnterS _
  | vbool b => exact noRel_pyEnterS _
  | vint n => exact noRel_pyEnterS _
  | vstr s => exact noRel_pyEnterS _
  | vpair a b => exact noRel_pyEnterS _
  | vfunc id => exact noRel_pyEnterS _
  | vobj id cls => exact noRel_pyEnterS _
  | vcoro w => exact noRel_pyEnterS _

theorem noRel_ctxStepISync (env : Env) (bv : BVal) : NoRel (ctxStepISync env bv) := by
  unfold ctxStepISync
  apply noRel_mbind (noRel_callBoundInject env bv)
  intro t
  by_cases h : t.2.1 = true
  · simp only [h, if_true]
    exact noRel_pyEnterS t.1
  · simp only [h, if_false]
    exact noRel_mret _

theorem noRel_ctxStepIAsync (env : Env) (bv : BVal) : NoRel (ctxStepIAsync env bv) := by
  unfold ctxStepIAsync
  apply noRel_mbind (noRel_callBoundInject env bv)
  intro t
  by_cases h : t.2.1 = true
  · simp only [h, if_true]
    exact noRel_pyEnterA t.1
  · simp only [h, if_false]
    exact noRel_mret _

theorem noRel_ctxStepCSync (env : Env) (c a : PyVal) : NoRel (ctxStepCSync env c a) := by
  unfold ctxStepCSync
  apply noRel_mbind (noRel_ccall env c a)
  intro t
  by_cases h : t.2.1 = true
  · simp only [h, if_true]
    exact noRel_pyEnterS t.1
  · simp only [h, if_false]
    exact noRel_mret _

theorem noRel_ctxStepCAsync (env : Env) (c a : PyVal) : NoRel (ctxStepCAsync env c a) := by
  unfold ctxStepCAsync
  apply noRel_mbind (noRel_ccall env c a)
  intro t
  by_cases h : t.2.1 = true
  · simp only [h, if_true]
    exact noRel_pyEnterA t.1
  · simp only [h, if_false]
    exact noRel_mret _

theorem noRel_ctxKwBugStep (env : Env) (l : List (String × BVal)) :
    NoRel (ctxKwBugStep env l) := by
  cases l with
  | nil => exact noRel_mret _
  | cons kv rest =>
    exact noRel_mbind (noRel_callBoundInject env kv.2) fun _ => noRel_throwM _

theorem noRel_invokeArgs (sig : Sig) (pos : List PyVal) (kw : List (String × PyVal)) :
    NoRel (invokeArgs sig pos kw) := by
  unfold invokeArgs
  cases pyBind sig pos kw false with
  | error e => exact noRel_throwM _
  | ok m => exact noRel_mret _

/-- `ExitStack` correctness over the trace: if the body of the `with`
block performs no release of its own, then after the block the releases
are exactly the successful entries, in reverse order of entry — whatever
the body's outcome (normal return, underlying failure, or a failed entry
partway through). -/
theorem runStack_release {α : Type} (body : M α) (hnr : releaseIds body.2 = []) :
    releaseIds (runStack body).2 = (enterIds (runStack body).2).reverse := by
  unfold runStack
  simp only [releaseIds_append, enterIds_append, hnr,
    releaseIds_map_release, enterIds_map_release, List.nil_append, List.append_nil]

/-- The `with` block propagates the body's outcome unchanged. -/
theorem runStack_fst {α : Type} (body : M α) : (runStack body).1 = body.1 := rfl

theorem injectsCtxSyncCall_release (env : Env) (sig : Sig)
    (table : List (String × BVal)) (fnOut : FnOut)
    (pos : List PyVal) (kw : List (String × PyVal)) :
    releaseIds (injectsCtxSyncCall env sig table fnOut pos kw).1.2 =
      (enterIds (injectsCtxSyncCall env sig table fnOut pos kw).1.2).reverse := by
  unfold injectsCtxSyncCall
  cases hc : bindCallerI sig pos kw with
  | error e =>
    simp only [hc]
    exact runStack_release _ (noRel_throwM e)
  | ok mba =>
    simp only [hc]
    apply runStack_release
    apply noRel_mbind
    · exact noRel_mmapM (fun bv => noRel_ctxStepISync env bv) _
    · intro args
      apply noRel_mbind
      · exact noRel_ctxKwBugStep env _
      · intro kws
        cases pyBind sig args kws true with
        | error e => exact noRel_throwM e
        | ok m2 =>
          exact noRel_mbind (noRel_invokeArgs _ _ _) fun m => noRel_liftE _

theorem injectsCtxAsyncCall_release (env : Env) (sig : Sig)
    (table : List (String × BVal)) (fnOut : FnOut)
    (pos : List PyVal) (kw : List (String × PyVal)) :
    releaseIds (injectsCtxAsyncCall env sig table fnOut pos kw).1.2 =
      (enterIds (injectsCtxAsyncCall env sig table fnOut pos kw).1.2).reverse := by
  unfold injectsCtxAsyncCall
  cases hc : bindCallerI sig pos kw with
  | error e =>
    simp only [hc]
    exact runStack_release _ (noRel_throwM e)
  | ok mba =>
    simp only [hc]
    apply runStack_release
    apply noRel_mbind
    · exact noRel_mmapM (fun bv => noRel_ctxStepIAsync env bv) _
    · intro args
      apply noRel_mbind
      · exact noRel_mmapM
          (fun (kv : String × BVal) =>
            noRel_mbind (noRel_ctxStepIAsync env kv.2) fun v => noRel_mret _) _
      · intro kws
        cases pyBind sig args kws true with
        | error e => exact noRel_throwM e
        | ok m2 =>
          exact noRel_mbind (noRel_invokeArgs _ _ _) fun m => noRel_liftE _

theorem composesCtxSyncCall_release (env : Env) (sig : Sig)
    (table : List (String × PyVal)) (fnOut : FnOut)
    (pos : List PyVal) (kw : List (String × PyVal)) :
    releaseIds (composesCtxSyncCall env sig table fnOut pos kw).1.2 =
      (enterIds (composesCtxSyncCall env sig table fnOut pos kw).1.2).reverse := by
  unfold composesCtxSyncCall
  cases hc : pyBind sig pos kw false with
  | error e =>
    simp only [hc]
    exact runStack_release _ (noRel_throwM e)
  | ok mba =>
    simp only [hc]
    apply runStack_release
    apply noRel_mbind
    · exact noRel_mmapM (fun (ca : PyVal × PyVal) => noRel_ctxStepCSync env ca.1 ca.2) _
    · intro args
      apply noRel_mbind
      · exact noRel_mmapM
          (fun (kv : String × PyVal) =>
            noRel_mbind (noRel_ctxStepCSync env _ kv.2) fun v => noRel_mret _) _
      · intro kws
        cases pyBind sig args kws false with
        | error e => exact noRel_throwM e
        | ok m2 =>
          exact noRel_mbind (noRel_invokeArgs _ _ _) fun m => noRel_liftE _

theorem composesCtxAsyncCall_release (env : Env) (sig : Sig)
    (table : List (String × PyVal)) (fnOut : FnOut)
    (pos : List PyVal) (kw : List (String × PyVal)) :
    releaseIds (composesCtxAsyncCall env sig table fnOut pos kw).1.2 =
      (enterIds (composesCtxAsyncCall env sig table fnOut pos kw).1.2).reverse := by
  unfold composesCtxAsyncCall
  cases hc : pyBind sig pos kw false with
  | error e =>
    simp only [hc]
    exact runStack_release _ (noRel_throwM e)
  | ok mba =>
    simp only [hc]
    apply runStack_release
    apply noRel_mbind
    · exact noRel_mmapM (fun (ca : PyVal × PyVal) => noRel_ctxStepCAsync env ca.1 ca.2) _
    · intro args
      apply noRel_mbind
      · exact noRel_mmapM
          (fun (kv : String × PyVal) =>
            noRel_mbind (noRel_ctxStepCAsync env _ kv.2) fun v => noRel_mret _) _
      · intro kws
        cases pyBind sig args kws false with
        | error e => exact noRel_throwM e
        | ok m2 =>
          exact noRel_mbind (noRel_invokeArgs _ _ _) fun m => noRel_liftE _

/-! ## Binder error lemmas -/

theorem bindPos_error_of_long {α : Type} :
    ∀ (sig : Sig) (pos : List α),
      (sig.takeWhile fun p => p.kind == PKind.posOrKw).length < pos.length →
      ∃ e, bindPos sig pos = .error e := by
  intro sig
  induction sig with
  | nil =>
    intro pos h
    cases pos with
    | nil => simp at h
    | cons v vs => exact ⟨_, rfl⟩
  | cons p ps ih =>
    intro pos h
    cases pos with
    | nil => simp at h
    | cons v vs =>
      cases hk : p.kind with
      | kwOnly => exact ⟨.typeError "too many positional arguments", by simp [bindPos, hk]⟩
      | posOrKw =>
        have h2 : (ps.takeWhile fun q => q.kind == PKind.posOrKw).length < vs.length := by
          rw [List.takeWhile_cons] at h
          simp only [hk] at h
          simp at h
          omega
        obtain ⟨e, he⟩ := ih vs h2
        exact ⟨e, by simp [bindPos, hk, he]⟩

theorem bindKw_error_of_unknown {α : Type} (sig : Sig) :
    ∀ (kws : List (String × α)) (bound : List String),
      (∃ kv ∈ kws, kv.1 ∉ namesOf sig) →
      ∃ e, bindKw sig bound kws = .error e := by
  intro kws
  induction kws with
  | nil =>
    intro bound h
    obtain ⟨kv, hmem, _⟩ := h
    simp at hmem
  | cons kv rest ih =>
    intro bound h
    obtain ⟨k2, v2⟩ := kv
    by_cases hb : k2 ∈ bound
    · exact ⟨.typeError "multiple values for argument", by simp [bindKw, hb]⟩
    · by_cases hn : k2 ∈ namesOf sig
      · obtain ⟨kv2, hmem2, hbad⟩ := h
        have hmem3 : kv2 ∈ rest := by
          rcases List.mem_cons.mp hmem2 with he | hr
          · exfalso
            apply hbad
            rw [he]
            exact hn
          · exact hr
        obtain ⟨e, he⟩ := ih (k2 :: bound) ⟨kv2, hmem3, hbad⟩
        exact ⟨e, by simp [bindKw, hb, hn, he]⟩
      · exact ⟨.typeError "got an unexpected keyword argument", by simp [bindKw, hb, hn]⟩

theorem pyBind_error_of_unknown_kw {α : Type} {sig : Sig} {pos : List α}
    {kw : List (String × α)} {fl : Bool}
    (h : ∃ kv ∈ kw, kv.1 ∉ namesOf sig) :
    ∃ e, pyBind sig pos kw fl = .error e := by
  cases hp : bindPos sig pos with
  | error e => exact ⟨e, by simp [pyBind, hp]⟩
  | ok pb =>
    obtain ⟨e, he⟩ := bindKw_error_of_unknown sig kw (pb.map (·.1)) h
    exact ⟨e, by simp [pyBind, hp, he]⟩

theorem pyBind_error_of_long {α : Type} {sig : Sig} {pos : List α}
    {kw : List (String × α)} {fl : Bool}
    (h : (sig.takeWhile fun p => p.kind == PKind.posOrKw).length < pos.length) :
    ∃ e, pyBind sig pos kw fl = .error e := by
  obtain ⟨e, he⟩ := bindPos_error_of_long sig pos h
  exact ⟨e, by simp [pyBind, he]⟩

/-! ## Claim theorems -/

/-- An environment where the callable object with identity 0 returns 99
when invoked with one argument. -/
def objEnv : Env where
  call0 _ := .error (.userError 1)
  call1 id _ := if id == 0 then .ok (.vint 99) else .error (.userError 2)

/-- C9: in the compose merge's `_call`, a caller-supplied value passes
through unchanged and untagged exactly when the composer bound for that
parameter is `None` or is the identical object to the call-time value
(`c is a or c is None`); an object that merely compares equal (same
equality class, different identity) is still invoked.  Consequently
binding `None` as a composer disables composition, and passing a
parameter's own composer object as the call-time argument bypasses it. -/
theorem compose_passthrough_iff_identity_or_none :
    (∀ (env : Env) (c a : PyVal),
       ccall env c a =
         ((.ok (a, false, .vbool false) : Except PyErr (PyVal × Bool × PyVal)),
          ([] : List Ev)) ↔
       (pyIs c a || pyIs c PyVal.vnone) = true) ∧
    (pyEq (.vobj 0 5) (.vobj 1 5) = true ∧ pyIs (.vobj 0 5) (.vobj 1 5) = false ∧
      ccall objEnv (.vobj 0 5) (.vobj 1 5) =
        (.ok (.vint 99, true, .vobj 0 5), [.call1 0 (.vobj 1 5)])) ∧
    (∀ (env : Env) (a : PyVal),
       ccall env .vnone a =
         ((.ok (a, false, .vbool false) : Except PyErr (PyVal × Bool × PyVal)),
          ([] : List Ev))) ∧
    (∀ (env : Env) (c : PyVal),
       ccall env c c =
         ((.ok (c, false, .vbool false) : Except PyErr (PyVal × Bool × PyVal)),
          ([] : List Ev))) := by
  refine ⟨?_, by decide, ?_, ?_⟩
  · intro env c a
    constructor
    · intro h
      by_contra hc
      have hc2 : (pyIs c a || pyIs c PyVal.vnone) = false := by
        simpa using hc
      simp only [ccall, hc2, Bool.false_eq_true, if_false] at h
      cases hcid : callId c with
      | none =>
        simp only [pyCall1, hcid, throwM, mbind] at h
        exact absurd (congrArg (fun x => x.1) h) (by simp)
      | some id =>
        cases he : env.call1 id a with
        | error e2 =>
          simp only [pyCall1, hcid, he, mbind, mret] at h
          exact absurd (congrArg (fun x => x.1) h) (by simp)
        | ok r =>
          simp only [pyCall1, hcid, he, mbind, mret] at h
          exact absurd (congrArg (fun x => x.2) h) (by simp)
    · intro h
      simp [ccall, h, mret]
  · intro env a
    simp [ccall, pyIs, mret]
  · intro env c
    simp [ccall, pyIs, mret]

/-- C10: an injector-table entry (a `_bindwrap`) is invoked at call time
exactly when its payload is callable — a non-callable payload is passed
through as a literal with the produced-by-callable flag down, and a
callable payload always yields a value tagged as produced by that
callable, so a callable object can never be injected as a literal.
Call-time values (not `_bindwrap`s) are never invoked or tagged.  In
`injects.ctx` the produced-by-callable flag is the sole gate for context
entry: untagged values — caller-supplied arguments and non-callable
injected literals — pass through both the sync and async entry steps
unchanged with no entry performed, while values produced by a
decoration-time callable are entered. -/
theorem inject_callable_gate_and_ctx_entry :
    (∀ (env : Env) (a : PyVal),
       callBoundInject env (.plain a) =
         ((.ok (a, false, .vbool false) : Except PyErr (PyVal × Bool × PyVal)),
          ([] : List Ev))) ∧
    (∀ (env : Env) (v : PyVal), pyCallable v = false →
       callBoundInject env (.wrapped v) =
         ((.ok (v, false, .vbool false) : Except PyErr (PyVal × Bool × PyVal)),
          ([] : List Ev))) ∧
    (∀ (env : Env) (v : PyVal) (t : PyVal × Bool × PyVal), pyCallable v = true →
       (callBoundInject env (.wrapped v)).1 = .ok t →
       t.2.1 = true ∧ t.2.2 = v) ∧
    (∀ (env : Env) (a : PyVal),
       ctxStepISync env (.plain a) = ((.ok a : Except PyErr PyVal), ([] : List Ev)) ∧
       ctxStepIAsync env (.plain a) = ((.ok a : Except PyErr PyVal), ([] : List Ev))) ∧
    (∀ (env : Env) (v : PyVal), pyCallable v = false →
       ctxStepISync env (.wrapped v) = ((.ok v : Except PyErr PyVal), ([] : List Ev)) ∧
       ctxStepIAsync env (.wrapped v) = ((.ok v : Except PyErr PyVal), ([] : List Ev))) ∧
    ctxStepISync ctxEnv (.wrapped (.vfunc 0)) = (.ok (.vint 7), [.call0 0, .enter 5]) := by
  refine ⟨fun env a => rfl, ?_, ?_, ?_, ?_, by decide⟩
  · intro env v h
    simp [callBoundInject, h, mret]
  · intro env v t hc h
    cases v with
    | vfunc id =>
      simp only [callBoundInject, pyCallable, if_true] at h
      cases he : env.call0 id <;>
        simp [pyCall0, callId, he, mbind, mret] at h
      exact ⟨by rw [← h], by rw [← h]⟩
    | vobj id cls =>
      simp only [callBoundInject, pyCallable, if_true] at h
      cases he : env.call0 id <;>
        simp [pyCall0, callId, he, mbind, mret] at h
      exact ⟨by rw [← h], by rw [← h]⟩
    | vnone => simp [pyCallable] at hc
    | vbool b => simp [pyCallable] at hc
    | vint n => simp [pyCallable] at hc
    | vstr s => simp [pyCallable] at hc
    | vpair a b => simp [pyCallable] at hc
    | vcoro w => simp [pyCallable] at hc
    | vctx id inner ia fails => simp [pyCallable] at hc
  · intro env a
    exact ⟨rfl, rfl⟩
  · intro env v h
    constructor
    · simp [ctxStepISync, callBoundInject, h, mret, mbind]
    · simp [ctxStepIAsync, callBoundInject, h, mret, mbind]

/-- Witness for C10: the callable injector `lambda: 7` (id 0) at a
`_bindwrap` entry produces a value flagged as produced by that callable,
with the producing callable recorded. -/
theorem inject_callable_gate_and_ctx_entry_witness :
    ((.vint 7, true, PyVal.vfunc 0) : PyVal × Bool × PyVal).2.1 = true ∧
    ((.vint 7, true, PyVal.vfunc 0) : PyVal × Bool × PyVal).2.2 = PyVal.vfunc 0 :=
  inject_callable_gate_and_ctx_entry.2.2.1 exEnv (.vfunc 0) (.vint 7, true, .vfunc 0)
    (by decide) (by decide)

/-- `def foo(a, b)` with both parameters required. -/
def msSig : Sig := [⟨"a", .posOrKw, none⟩, ⟨"b", .posOrKw, none⟩]

/-- The table `injects(a=1)`, leaving `b` uninjected. -/
def msTable : List (String × BVal) := [("a", .wrapped (.vint 1))]

/-- C7: decoration-time arguments that do not correspond to a declared
parameter — an unknown keyword name, or more positional values than
leading positional parameters — make the decorator factories raise a
signature-mismatch error at decoration time (both the inject and the
compose families); call-time arguments that cannot be bound surface a
signature-mismatch error to the caller; and a required parameter still
missing after the merge surfaces a signature-mismatch error at the
underlying invocation's binding, with no local recovery. -/
theorem signature_mismatch_errors :
    (∀ (sig : Sig) (pos : List PyVal) (kw : List (String × PyVal)),
       (∃ kv ∈ kw, kv.1 ∉ namesOf sig) →
       ∃ e, injectsDecorate sig pos kw = .error e) ∧
    (∀ (sig : Sig) (pos : List PyVal) (kw : List (String × PyVal)),
       (∃ kv ∈ kw, kv.1 ∉ namesOf sig) →
       ∃ e, composesDecorate sig pos kw = .error e) ∧
    (∀ (sig : Sig) (pos : List PyVal) (kw : List (String × PyVal)),
       (sig.takeWhile fun p => p.kind == PKind.posOrKw).length < pos.length →
       ∃ e, injectsDecorate sig pos kw = .error e) ∧
    (∀ (sig : Sig) (pos : List PyVal) (kw : List (String × PyVal)),
       (sig.takeWhile fun p => p.kind == PKind.posOrKw).length < pos.length →
       ∃ e, composesDecorate sig pos kw = .error e) ∧
    (∀ (env : Env) (sig : Sig) (table : List (String × PyVal)) (fnOut : FnOut)
       (pos : List PyVal) (kw : List (String × PyVal)),
       (∃ kv ∈ kw, kv.1 ∉ namesOf sig) →
       ∃ e, (composesSyncCall env sig table fnOut pos kw).1.1 = .error e) ∧
    (∀ (env : Env) (sig : Sig) (table : List (String × BVal)) (fnOut : FnOut)
       (pos : List PyVal) (kw : List (String × PyVal)),
       (∃ kv ∈ kw, kv.1 ∉ namesOf sig) →
       ∃ e, (injectsSyncCall env sig table fnOut pos kw).1.1 = .error e) ∧
    (injectsSyncCall exEnv msSig msTable oneOut [] []).1.1 =
      .error (.typeError "missing a required argument") := by
  refine ⟨?_, ?_, ?_, ?_, ?_, ?_, ?_⟩
  · intro sig pos kw h
    obtain ⟨kv, hm, hbad⟩ := h
    exact pyBind_error_of_unknown_kw
      ⟨(kv.1, BVal.wrapped kv.2),
        List.mem_map_of_mem (fun kv => (kv.1, BVal.wrapped kv.2)) hm, hbad⟩
  · intro sig pos kw h
    exact pyBind_error_of_unknown_kw h
  · intro sig pos kw h
    apply pyBind_error_of_long
    rw [List.length_map]
    exact h
  · intro sig pos kw h
    exact pyBind_error_of_long h
  · intro env sig table fnOut pos kw h
    obtain ⟨e, he⟩ := @pyBind_error_of_unknown_kw PyVal sig pos kw false h
    exact ⟨e, by simp [composesSyncCall, composesSyncDelivered, he, throwM, mbind]⟩
  · intro env sig table fnOut pos kw h
    obtain ⟨kv, hm, hbad⟩ := h
    obtain ⟨e, he⟩ := @pyBind_error_of_unknown_kw BVal sig (pos.map BVal.plain)
      (kw.map fun kv => (kv.1, BVal.plain kv.2)) true
      ⟨(kv.1, BVal.plain kv.2),
        List.mem_map_of_mem (fun kv => (kv.1, BVal.plain kv.2)) hm, hbad⟩
    exact ⟨e, by simp [injectsSyncCall, injectsSyncDelivered, bindCallerI, he, throwM, mbind]⟩
  · decide

/-- Witness for C7: decorating `foo(arg1, arg2, arg3='ignored')` with the
unknown keyword `zz` raises at decoration time. -/
theorem signature_mismatch_errors_witness :
    ∃ e, injectsDecorate fooSig [] [("zz", PyVal.vnone)] = .error e :=
  signature_mismatch_errors.1 fooSig [] [("zz", PyVal.vnone)]
    ⟨("zz", PyVal.vnone), by decide, by decide⟩

/-- C5: for both context-scoped variants (`injects.ctx` and
`composes.ctx`), synchronous and asynchronous, on every call — whatever
the environment, tables, arguments and outcome (normal return, underlying
raise, or a resource failing its setup step after earlier ones entered) —
the sequence of released resources is exactly the sequence of
successfully entered resources reversed: all entered resources are
released, exactly once each, in reverse order of entry, on every exit
path. -/
theorem ctx_release_reverse_all_paths :
    (∀ (env : Env) (sig : Sig) (table : List (String × BVal)) (fnOut : FnOut)
       (pos : List PyVal) (kw : List (String × PyVal)),
       releaseIds (injectsCtxSyncCall env sig table fnOut pos kw).1.2 =
         (enterIds (injectsCtxSyncCall env sig table fnOut pos kw).1.2).reverse) ∧
    (∀ (env : Env) (sig : Sig) (table : List (String × BVal)) (fnOut : FnOut)
       (pos : List PyVal) (kw : List (String × PyVal)),
       releaseIds (injectsCtxAsyncCall env sig table fnOut pos kw).1.2 =
         (enterIds (injectsCtxAsyncCall env sig table fnOut pos kw).1.2).reverse) ∧
    (∀ (env : Env) (sig : Sig) (table : List (String × PyVal)) (fnOut : FnOut)
       (pos : List PyVal) (kw : List (String × PyVal)),
       releaseIds (composesCtxSyncCall env sig table fnOut pos kw).1.2 =
         (enterIds (composesCtxSyncCall env sig table fnOut pos kw).1.2).reverse) ∧
    (∀ (env : Env) (sig : Sig) (table : List (String × PyVal)) (fnOut : FnOut)
       (pos : List PyVal) (kw : List (String × PyVal)),
       releaseIds (composesCtxAsyncCall env sig table fnOut pos kw).1.2 =
         (enterIds (composesCtxAsyncCall env sig table fnOut pos kw).1.2).reverse) :=
  ⟨injectsCtxSyncCall_release, injectsCtxAsyncCall_release,
   composesCtxSyncCall_release, composesCtxAsyncCall_release⟩

/-- C8: the decoration-time injector/composer table is left unchanged by
every invocation: the build functions merge through a fresh copy
(whatever the two dictionaries hold), each of the eight wrapper shapes
reads the same table back after any call, and any sequence of calls
leaves the table exactly as captured at decoration time. -/
theorem decoration_table_unchanged :
    (∀ (α : Type) (bc ba : List (String × α)), (mergeInject bc ba).2 = bc) ∧
    (∀ (α : Type) (bc ba : List (String × α)), (mergeCompose bc ba).2 = bc) ∧
    (∀ (env : Env) (sig : Sig) (table : List (String × BVal)) (fnOut : FnOut)
       (pos : List PyVal) (kw : List (String × PyVal)),
       (injectsSyncCall env sig table fnOut pos kw).2 = table ∧
       (injectsAsyncCall env sig table fnOut pos kw).2 = table ∧
       (injectsCtxSyncCall env sig table fnOut pos kw).2 = table ∧
       (injectsCtxAsyncCall env sig table fnOut pos kw).2 = table) ∧
    (∀ (env : Env) (sig : Sig) (table : List (String × PyVal)) (fnOut : FnOut)
       (pos : List PyVal) (kw : List (String × PyVal)),
       (composesSyncCall env sig table fnOut pos kw).2 = table ∧
       (composesAsyncCall env sig table fnOut pos kw).2 = table ∧
       (composesCtxSyncCall env sig table fnOut pos kw).2 = table ∧
       (composesCtxAsyncCall env sig table fnOut pos kw).2 = table) ∧
    (∀ (env : Env) (sig : Sig) (table : List (String × BVal)) (fnOut : FnOut)
       (calls : List (List PyVal × List (String × PyVal))),
       calls.foldl (fun t c => (injectsSyncCall env sig t fnOut c.1 c.2).2) table =
         table) := by
  have hIS : ∀ (env : Env) (sig : Sig) (table : List (String × BVal)) (fnOut : FnOut)
      (pos : List PyVal) (kw : List (String × PyVal)),
      (injectsSyncCall env sig table fnOut pos kw).2 = table := by
    intro env sig table fnOut pos kw
    unfold injectsSyncCall injectsSyncDelivered
    cases hc : bindCallerI sig pos kw <;> simp [hc, mergeInject_snd]
  refine ⟨fun α bc ba => rfl, fun α bc ba => rfl, ?_, ?_, ?_⟩
  · intro env sig table fnOut pos kw
    refine ⟨hIS env sig table fnOut pos kw, ?_, ?_, ?_⟩
    · unfold injectsAsyncCall injectsAsyncDelivered
      cases hc : bindCallerI sig pos kw <;> simp [hc, mergeInject_snd]
    · unfold injectsCtxSyncCall
      cases hc : bindCallerI sig pos kw <;> simp [hc, mergeInject_snd]
    · unfold injectsCtxAsyncCall
      cases hc : bindCallerI sig pos kw <;> simp [hc, mergeInject_snd]
  · intro env sig table fnOut pos kw
    refine ⟨?_, ?_, ?_, ?_⟩
    · unfold composesSyncCall composesSyncDelivered
      cases hc : pyBind sig pos kw false <;> simp [hc, mergeCompose_snd]
    · unfold composesAsyncCall composesAsyncDelivered
      cases hc : pyBind sig pos kw false <;> simp [hc, mergeCompose_snd]
    · unfold composesCtxSyncCall
      cases hc : pyBind sig pos kw false <;> simp [hc, mergeCompose_snd]
    · unfold composesCtxAsyncCall
      cases hc : pyBind sig pos kw false <;> simp [hc, mergeCompose_snd]
  · intro env sig table fnOut calls
    induction calls generalizing table with
    | nil => rfl
    | cons c cs ih => simp [List.foldl_cons, hIS, ih]

/-- C1: for every function decorated with `injects` (synchronous or
asynchronous) and every parameter `p`, an explicit call-time value for `p`
(positional or keyword — whatever the caller's own partial binding
assigned to `p`) is what the underlying function receives for `p`,
overriding the injector table's entry; this includes an explicit `None`. -/
theorem injects_call_time_override :
    (∀ (env : Env) (sig : Sig) (table : List (String × BVal))
       (pos : List PyVal) (kw : List (String × PyVal))
       (mba : List (String × BVal)) (p : String) (v : PyVal)
       (m : List (String × PyVal)),
       SigOk sig →
       bindCallerI sig pos kw = .ok mba →
       lkp p mba = some (.plain v) →
       (injectsSyncDelivered env sig table pos kw).1.1 = .ok m →
       lkp p m = some v) ∧
    (∀ (env : Env) (sig : Sig) (table : List (String × BVal))
       (pos : List PyVal) (kw : List (String × PyVal))
       (mba : List (String × BVal)) (p : String) (v : PyVal)
       (m : List (String × PyVal)),
       SigOk sig →
       bindCallerI sig pos kw = .ok mba →
       lkp p mba = some (.plain v) →
       (injectsAsyncDelivered env sig table pos kw).1.1 = .ok m →
       lkp p m = some v) :=
  ⟨fun _ _ _ _ _ _ _ _ _ hnd hcall hpv hrun =>
      injectsSyncDeliveredOverride hnd hcall hpv hrun,
   fun _ _ _ _ _ _ _ _ _ hnd hcall hpv hrun =>
      injectsAsyncDeliveredOverride hnd hcall hpv hrun⟩

/-- Witness for C1 at the doctest input `foo(arg1=None)` with
`injects(arg1=lambda: 7, arg2=6, arg3=5)`: the wrapped function receives
`None` for `arg1`, the explicit call-time `None` beating the injector. -/
theorem injects_call_time_override_witness :
    lkp "arg1" [("arg1", PyVal.vnone), ("arg2", PyVal.vint 6), ("arg3", PyVal.vint 5)] =
      some PyVal.vnone :=
  injects_call_time_override.1 exEnv fooSig fooTable [] [("arg1", .vnone)]
    [("arg1", .plain .vnone)] "arg1" .vnone
    [("arg1", PyVal.vnone), ("arg2", PyVal.vint 6), ("arg3", PyVal.vint 5)]
    (by decide) (by decide) (by decide) (by decide)

/-- C2: for every function decorated with `composes` (sync or async), a
parameter the caller did not explicitly supply (positionally or by
keyword) is delivered to the wrapped function as its declared signature
default, unmodified by any composer; and the documented example holds:
`composes(lambda x: x+1, y=lambda y: y+2)` on `foo(x, y=2)` gives
`foo(0, 1) = (1, 3)` and `foo(1) = (2, 2)`. -/
theorem composes_only_caller_supplied :
    (∀ (env : Env) (sig : Sig) (table : List (String × PyVal))
       (pos : List PyVal) (kw : List (String × PyVal))
       (mba : List (String × PyVal)) (q : Param) (d : PyVal)
       (m : List (String × PyVal)),
       SigOk sig →
       pyBind sig pos kw false = .ok mba →
       q ∈ sig → q.default = some d → lkp q.name mba = none →
       (composesSyncDelivered env sig table pos kw).1.1 = .ok m →
       lkp q.name m = some d) ∧
    (∀ (env : Env) (sig : Sig) (table : List (String × PyVal))
       (pos : List PyVal) (kw : List (String × PyVal))
       (mba : List (String × PyVal)) (q : Param) (d : PyVal)
       (m : List (String × PyVal)),
       SigOk sig →
       pyBind sig pos kw false = .ok mba →
       q ∈ sig → q.default = some d → lkp q.name mba = none →
       (composesAsyncDelivered env sig table pos kw).1.1 = .ok m →
       lkp q.name m = some d) ∧
    composesDecorate cmpSig [.vfunc 0] [("y", .vfunc 1)] = .ok cmpTable ∧
    (composesSyncCall exEnv cmpSig cmpTable cmpOut [.vint 0, .vint 1] []).1.1 =
      .ok (.vpair (.vint 1) (.vint 3)) ∧
    (composesSyncCall exEnv cmpSig cmpTable cmpOut [.vint 1] []).1.1 =
      .ok (.vpair (.vint 2) (.vint 2)) :=
  ⟨fun _ _ _ _ _ _ _ _ _ hnd hcall hq hqd habs hrun =>
      composesSyncDeliveredDefault hnd hcall hq hqd habs hrun,
   fun _ _ _ _ _ _ _ _ _ hnd hcall hq hqd habs hrun =>
      composesAsyncDeliveredDefault hnd hcall hq hqd habs hrun,
   by decide, by decide, by decide⟩

/-- Witness for C2 at the doctest input `foo(1)`: `y` is unsupplied, and
the wrapped function receives its declared default `2` uncomposed. -/
theorem composes_only_caller_supplied_witness :
    lkp "y" [("x", PyVal.vint 2), ("y", PyVal.vint 2)] = some (PyVal.vint 2) :=
  composes_only_caller_supplied.1 exEnv cmpSig cmpTable [.vint 1] []
    [("x", .vint 1)] ⟨"y", .posOrKw, some (.vint 2)⟩ (.vint 2)
    [("x", PyVal.vint 2), ("y", PyVal.vint 2)]
    (by decide) (by decide) (by decide) (by decide) (by decide) (by decide)

/-- C3: `injects(arg1=lambda: 7, arg2=6, arg3=5)` on
`foo(arg1, arg2, arg3='ignored')`: the decoration builds exactly the
wrapped table; `foo()` returns `(7, 6, 5)` (the injector table beats
`arg3`'s declared default) with the zero-argument callable for `arg1`
invoked exactly once; `foo(9)` returns `(9, 6, 5)`; `foo(arg2=88)`
returns `(7, 88, 5)`. -/
theorem injects_doc_example :
    injectsDecorate fooSig []
        [("arg1", .vfunc 0), ("arg2", .vint 6), ("arg3", .vint 5)] = .ok fooTable ∧
    (injectsSyncCall exEnv fooSig fooTable fooOut [] []).1 =
      (.ok (.vpair (.vint 7) (.vpair (.vint 6) (.vint 5))), [.call0 0]) ∧
    ((injectsSyncCall exEnv fooSig fooTable fooOut [] []).1.2.count (Ev.call0 0)) = 1 ∧
    (injectsSyncCall exEnv fooSig fooTable fooOut [.vint 9] []).1 =
      (.ok (.vpair (.vint 9) (.vpair (.vint 6) (.vint 5))), []) ∧
    (injectsSyncCall exEnv fooSig fooTable fooOut [] [("arg2", .vint 88)]).1 =
      (.ok (.vpair (.vint 7) (.vpair (.vint 88) (.vint 5))), [.call0 0]) := by
  decide

/-- C4 (what the code actually does): in the async `injects` wrapper the
awaiting condition is `inspect.iscoroutine(awt)` where `awt` is the
producing callable, never its result, so an injector callable's coroutine
result is delivered to the wrapped function unresolved — the wrapped
function receives the pending `vcoro` object itself, and no `awaited`
event ever occurs.  The same holds for the async `composes` wrapper. -/
theorem async_pending_value_not_awaited :
    injectsDecorate oneSig [] [("arg1", .vfunc 0)] = .ok oneTable ∧
    (injectsAsyncCall coroEnv oneSig oneTable oneOut [] []).1 =
      (.ok (.vcoro (.vint 7)), [.call0 0]) ∧
    (composesAsyncCall coroEnv oneSig [("arg1", .vfunc 1)]
        oneOut [.vint 3] []).1 =
      (.ok (.vcoro (.vint 9)), [.call1 1 (.vint 3)]) := by
  decide

/-- C6 (what the code actually does): in the synchronous `injects.ctx`
wrapper, a positionally delivered parameter is handled correctly (its
produced context is entered, the inside value passed, the context released
on exit), but any parameter delivered through the keyword branch hits the
`for v, cld, _ in b_kwargs` unpacking defect: the injector callable is
still invoked, then the wrapper itself raises `ValueError` before
entering anything. -/
theorem injects_ctx_kwargs_unpack_defect :
    (injectsCtxSyncCall ctxEnv oneSig oneTable kwOut [] []).1 =
      (.ok (.vpair (.vint 7) .vnone), [.call0 0, .enter 5, .release 5]) ∧
    injectsDecorate kwSig [] [("arg2", .vfunc 0)] = .ok kwTable ∧
    (injectsCtxSyncCall ctxEnv kwSig kwTable kwOut [.vint 1] []).1 =
      (.error (.valueError "not enough values to unpack"), [.call0 0]) := by
  decide

end Injects
